import Mathlib

/-!
# ccwc: the line / word / byte / character counters

A shallow embedding of `main.go` (package `main` of `omarahr/ccwc`) and of the
parts of the Go standard library it calls: for the two counting passes
`unicode/utf8.DecodeRune`, `unicode.IsSpace`, `bufio.Reader.ReadRune` and
`bufio.Reader.Read`, for the output line `fmt.Sprintf("%d", _)` and
`strings.Join`.

Conventions.

* A Go `byte` is a `Fin 256`; a `rune` is the natural number of its code point,
  a `Nat` (the decoder only ever yields values in `0 .. 0x10FFFF`).
* The `int64` tallies are natural numbers: a tally never exceeds the number of
  bytes consumed, so it stays below `2^63` on every stream shorter than eight
  exbibytes.
* A loop is a structurally recursive function over a step budget; it yields
  `none` only when the budget runs out.  The top-level functions pass a budget
  that is proved sufficient, so every result is `some _`.
-/

namespace Ccwc

/-! ## Bytes, runes and errors -/

/-- A Go byte. -/
abbrev Byte := Fin 256

/-- Truncating conversion to a byte, Go's `byte(x)` on a non-negative value. -/
def toByte (x : Nat) : Byte := ⟨x % 256, Nat.mod_lt x (by decide)⟩

/-- Error values a read of the underlying stream can report: `io.EOF`, or any
other error, identified by a number. -/
inductive ReadError where
  | EOF : ReadError
  | other (id : Nat) : ReadError
deriving DecidableEq, Repr

/-- Error values the counting passes return: an error of the underlying
reader handed through unchanged, or the value built by
`fmt.Errorf("invalid UTF-8")`. -/
inductive Error where
  | read (e : ReadError) : Error
  | invalidUTF8 : Error
deriving DecidableEq, Repr

/-! ## `unicode/utf8` -/

/-- The constant `utf8.RuneError`, U+FFFD. -/
def RuneError : Nat := 0xFFFD
/-- The constant `utf8.RuneSelf`: bytes below it are single-byte runes. -/
def RuneSelf : Nat := 0x80
/-- The constant `utf8.MaxRune`. -/
def MaxRune : Nat := 0x10FFFF
/-- The constant `utf8.UTFMax`. -/
def UTFMax : Nat := 4
def surrogateMin : Nat := 0xD800
def surrogateMax : Nat := 0xDFFF

def tx : Nat := 0x80
def t2 : Nat := 0xC0
def t3 : Nat := 0xE0
def t4 : Nat := 0xF0
def maskx : Nat := 0x3F
def mask2 : Nat := 0x1F
def mask3 : Nat := 0x0F
def mask4 : Nat := 0x07
def rune1Max : Nat := 0x7F
def rune2Max : Nat := 0x7FF
def rune3Max : Nat := 0xFFFF
def locb : Nat := 0x80
def hicb : Nat := 0xBF

/-- Entry of `first`: invalid lead byte, size 1. -/
def xx : Nat := 0xF1
/-- Entry of `first`: ASCII, size 1. -/
def as : Nat := 0xF0
def s1 : Nat := 0x02
def s2 : Nat := 0x13
def s3 : Nat := 0x03
def s4 : Nat := 0x23
def s5 : Nat := 0x34
def s6 : Nat := 0x04
def s7 : Nat := 0x44

/-- The table `utf8.first`, information about the first byte of an encoding. -/
def firstTable : List Nat :=
  [ as, as, as, as, as, as, as, as, as, as, as, as, as, as, as, as, -- 0x00-0x0F
    as, as, as, as, as, as, as, as, as, as, as, as, as, as, as, as, -- 0x10-0x1F
    as, as, as, as, as, as, as, as, as, as, as, as, as, as, as, as, -- 0x20-0x2F
    as, as, as, as, as, as, as, as, as, as, as, as, as, as, as, as, -- 0x30-0x3F
    as, as, as, as, as, as, as, as, as, as, as, as, as, as, as, as, -- 0x40-0x4F
    as, as, as, as, as, as, as, as, as, as, as, as, as, as, as, as, -- 0x50-0x5F
    as, as, as, as, as, as, as, as, as, as, as, as, as, as, as, as, -- 0x60-0x6F
    as, as, as, as, as, as, as, as, as, as, as, as, as, as, as, as, -- 0x70-0x7F
    xx, xx, xx, xx, xx, xx, xx, xx, xx, xx, xx, xx, xx, xx, xx, xx, -- 0x80-0x8F
    xx, xx, xx, xx, xx, xx, xx, xx, xx, xx, xx, xx, xx, xx, xx, xx, -- 0x90-0x9F
    xx, xx, xx, xx, xx, xx, xx, xx, xx, xx, xx, xx, xx, xx, xx, xx, -- 0xA0-0xAF
    xx, xx, xx, xx, xx, xx, xx, xx, xx, xx, xx, xx, xx, xx, xx, xx, -- 0xB0-0xBF
    xx, xx, s1, s1, s1, s1, s1, s1, s1, s1, s1, s1, s1, s1, s1, s1, -- 0xC0-0xCF
    s1, s1, s1, s1, s1, s1, s1, s1, s1, s1, s1, s1, s1, s1, s1, s1, -- 0xD0-0xDF
    s2, s3, s3, s3, s3, s3, s3, s3, s3, s3, s3, s3, s3, s4, s3, s3, -- 0xE0-0xEF
    s5, s6, s6, s6, s7, xx, xx, xx, xx, xx, xx, xx, xx, xx, xx, xx ] -- 0xF0-0xFF

/-- Lookup `first[b]`. -/
def first (b : Byte) : Nat := firstTable.getD b.val xx

/-- The type `utf8.acceptRange`: the range of valid values for the second byte. -/
structure acceptRange where
  lo : Nat
  hi : Nat
deriving DecidableEq, Repr

/-- The table `utf8.acceptRanges`; the entries not listed are zero. -/
def acceptRanges (i : Nat) : acceptRange :=
  match i with
  | 0 => ⟨locb, hicb⟩
  | 1 => ⟨0xA0, hicb⟩
  | 2 => ⟨locb, 0x9F⟩
  | 3 => ⟨0x90, hicb⟩
  | 4 => ⟨locb, 0x8F⟩
  | _ => ⟨0, 0⟩

/-- Go's `utf8.DecodeRune`: unpacks the first UTF-8 encoding in `p` and returns
the rune and its width in bytes.  An empty `p` gives `(RuneError, 0)`, an
invalid or truncated encoding gives `(RuneError, 1)`. -/
def DecodeRune (p : List Byte) : Nat × Nat :=
  let n := p.length
  if n < 1 then (RuneError, 0) else
  let p0 := (p.getD 0 0).val
  let x := first (p.getD 0 0)
  if x ≥ as then
    -- mask := rune(x) << 31 >> 31 is all ones exactly when x is odd (x == xx)
    (if x % 2 = 1 then RuneError else p0, 1)
  else
  let sz := x &&& 7
  let accept := acceptRanges (x >>> 4)
  if n < sz then (RuneError, 1) else
  let b1 := (p.getD 1 0).val
  if b1 < accept.lo ∨ accept.hi < b1 then (RuneError, 1) else
  if sz ≤ 2 then (((p0 &&& mask2) <<< 6) ||| (b1 &&& maskx), 2) else
  let b2 := (p.getD 2 0).val
  if b2 < locb ∨ hicb < b2 then (RuneError, 1) else
  if sz ≤ 3 then
    ((((p0 &&& mask3) <<< 12) ||| ((b1 &&& maskx) <<< 6)) ||| (b2 &&& maskx), 3) else
  let b3 := (p.getD 3 0).val
  if b3 < locb ∨ hicb < b3 then (RuneError, 1) else
  (((((p0 &&& mask4) <<< 18) ||| ((b1 &&& maskx) <<< 12)) ||| ((b2 &&& maskx) <<< 6))
    ||| (b3 &&& maskx), 4)

/-- Go's `utf8.FullRune`: whether `p` begins with the full encoding of a rune;
an invalid encoding counts as full, for it decodes as a width-1 error rune. -/
def FullRune (p : List Byte) : Bool :=
  let n := p.length
  if n = 0 then false else
  let x := first (p.getD 0 0)
  if n ≥ x &&& 7 then true else
  let accept := acceptRanges (x >>> 4)
  if n > 1 ∧ ((p.getD 1 0).val < accept.lo ∨ accept.hi < (p.getD 1 0).val) then true
  else if n > 2 ∧ ((p.getD 2 0).val < locb ∨ hicb < (p.getD 2 0).val) then true
  else false

/-- Go's `utf8.ValidRune`: the Unicode scalar values. -/
def ValidRune (r : Nat) : Bool :=
  if r < surrogateMin then true
  else if surrogateMax < r ∧ r ≤ MaxRune then true
  else false

/-- Go's `utf8.RuneLen` on a valid rune: the number of bytes of its encoding. -/
def RuneLen (r : Nat) : Nat :=
  if r ≤ rune1Max then 1
  else if r ≤ rune2Max then 2
  else if r ≤ rune3Max then 3
  else 4

/-- Go's `utf8.AppendRune(nil, r)`: the UTF-8 encoding of `r`; a rune that is
not a scalar value is encoded as U+FFFD. -/
def EncodeRune (r : Nat) : List Byte :=
  if r ≤ rune1Max then [toByte r]
  else if r ≤ rune2Max then
    [toByte (t2 ||| toByte (r >>> 6)), toByte (tx ||| (toByte r &&& maskx))]
  else if r > MaxRune ∨ (surrogateMin ≤ r ∧ r ≤ surrogateMax) then
    [toByte (t3 ||| toByte (RuneError >>> 12)),
     toByte (tx ||| (toByte (RuneError >>> 6) &&& maskx)),
     toByte (tx ||| (toByte RuneError &&& maskx))]
  else if r ≤ rune3Max then
    [toByte (t3 ||| toByte (r >>> 12)),
     toByte (tx ||| (toByte (r >>> 6) &&& maskx)),
     toByte (tx ||| (toByte r &&& maskx))]
  else
    [toByte (t4 ||| toByte (r >>> 18)),
     toByte (tx ||| (toByte (r >>> 12) &&& maskx)),
     toByte (tx ||| (toByte (r >>> 6) &&& maskx)),
     toByte (tx ||| (toByte r &&& maskx))]

/-- The UTF-8 encoding of a text, Go's `[]byte(string(rs))`. -/
def encodeText (rs : List Nat) : List Byte :=
  rs.flatMap EncodeRune

/-! ## `unicode.IsSpace` -/

/-- The constant `unicode.MaxLatin1`. -/
def MaxLatin1 : Nat := 0xFF

/-- The type `unicode.Range16`. -/
structure Range16 where
  Lo : Nat
  Hi : Nat
  Stride : Nat
deriving DecidableEq, Repr

/-- The `R16` ranges of the table `unicode.White_Space`. -/
def White_Space_R16 : List Range16 :=
  [ ⟨0x0009, 0x000d, 1⟩,
    ⟨0x0020, 0x0085, 101⟩,
    ⟨0x00a0, 0x1680, 5600⟩,
    ⟨0x2000, 0x200a, 1⟩,
    ⟨0x2028, 0x2029, 1⟩,
    ⟨0x202f, 0x205f, 48⟩,
    ⟨0x3000, 0x3000, 1⟩ ]

/-- The `LatinOffset` of the table `unicode.White_Space`. -/
def White_Space_LatinOffset : Nat := 2

/-- Go's `unicode.is16` on a table short enough for the linear scan. -/
def is16 : List Range16 → Nat → Bool
  | [], _ => false
  | range_ :: ranges, r =>
    if r < range_.Lo then false
    else if r ≤ range_.Hi then
      range_.Stride == 1 || (r - range_.Lo) % range_.Stride == 0
    else is16 ranges r

/-- Go's `unicode.isExcludingLatin` on `White_Space`, whose `R32` is empty. -/
def isExcludingLatin (r : Nat) : Bool :=
  let r16 := White_Space_R16
  let off := White_Space_LatinOffset
  if r16.length > off ∧ r ≤ (r16.getD (r16.length - 1) ⟨0, 0, 0⟩).Hi then
    is16 (r16.drop off) r
  else false

/-- Go's `unicode.IsSpace`. -/
def IsSpace (r : Nat) : Bool :=
  if r ≤ MaxLatin1 then
    r == 0x09 || r == 0x0A || r == 0x0B || r == 0x0C || r == 0x0D || r == 0x20
      || r == 0x85 || r == 0xA0
  else isExcludingLatin r

/-! ## `main.go` -/

/-- The struct `Counters`. -/
structure Counters where
  Lines : Nat
  Words : Nat
  Bytes : Nat
  Chars : Nat
deriving DecidableEq, Repr

/-- What a counting pass returns: the `*Counters` (`none` for `nil`) and the
`error` (`none` for `nil`). -/
abbrev Result := Option Counters × Option Error

/-- The outcome of `bufio.Reader.ReadRune` on a reader whose unread bytes are
`unread` and whose underlying stream then reports `stop`: the rune, its size,
the error, and the bytes left unread.  The reader refills its window until it
holds `UTFMax` bytes or a full rune (`FullRune`) or the stream has ended, and
decodes the window; that is the decoding of the front of the unread stream
(`DecodeRune_window`).  A read error is reported once the bytes read before it
are used up. -/
def ReadRune (unread : List Byte) (stop : ReadError) :
    (Nat × Nat × Option ReadError) × List Byte :=
  if unread.length = 0 then ((0, 0, some stop), unread)
  else
    let b := (unread.getD 0 0).val
    let d := if b ≥ RuneSelf then DecodeRune unread else (b, 1)
    ((d.1, d.2, none), unread.drop d.2)

/-- The loop of `generalRuneCounter`, at most `fuel` iterations. -/
def runeLoop : Nat → List Byte → ReadError → Bool → Counters → Option Result
  | 0, _, _, _, _ => none
  | fuel + 1, unread, stop, inWord, counters =>
    let rd := ReadRune unread stop
    let r := rd.1.1
    let n := rd.1.2.1
    let err := rd.1.2.2
    if err = some ReadError.EOF then some (some counters, none)
    else
      match err with
      | some e => some (none, some (Error.read e))
      | none =>
        let counters := { counters with Bytes := counters.Bytes + n }
        let counters := { counters with Chars := counters.Chars + 1 }
        let counters :=
          if r = 0x0A then { counters with Lines := counters.Lines + 1 } else counters
        if IsSpace r then runeLoop fuel rd.2 stop false counters
        else if !inWord then
          runeLoop fuel rd.2 stop true { counters with Words := counters.Words + 1 }
        else runeLoop fuel rd.2 stop inWord counters

/-- The function `generalRuneCounter` on a reader over the bytes `input`
whose stream then reports `stop`.  Every iteration but the last consumes at
least one byte, so `input.length + 1` iterations are enough. -/
def generalRuneCounter (input : List Byte) (stop : ReadError) : Option Result :=
  runeLoop (input.length + 1) input stop false ⟨0, 0, 0, 0⟩

/-- A stream as `generalBufferCounter` sees it through `reader.Read(buf)`: the
blocks of the reads that report no error, then the read that reports the
error `stop` (`io.EOF` at the end of the stream) together with the bytes
`last` it still delivers. -/
structure Source where
  blocks : List (List Byte)
  last : List Byte
  stop : ReadError
deriving DecidableEq, Repr

/-- Length of `buf` in `generalBufferCounter`. -/
def bufSize : Nat := 8192

/-- Every read fills at most `buf`. -/
def Source.fits (src : Source) : Prop :=
  (∀ b ∈ src.blocks, b.length ≤ bufSize) ∧ src.last.length ≤ bufSize

instance (src : Source) : Decidable src.fits := by
  unfold Source.fits; infer_instance

/-- All the bytes a source delivers, in order. -/
def Source.bytes (src : Source) : List Byte :=
  src.blocks.flatten ++ src.last

/-- One call `reader.Read(buf)`: the chunk `buf[:n]`, the error, and the
source that remains.  `buf` is no shorter than the buffer of the
`bufio.Reader` and the pass leaves nothing in that buffer, so every call is
one read of the underlying stream. -/
def Read (src : Source) : (List Byte × Option ReadError) × Source :=
  match src.blocks with
  | b :: rest => ((b, none), { src with blocks := rest })
  | [] => ((src.last, some src.stop), { src with last := [] })

/-- State of the in-block loop of `generalBufferCounter` when it stops: the
word flag, the counters, and the error if the loop returned early. -/
abbrev BlockResult := Bool × Counters × Option Error

/-- The loop `for i < len(chunk)` of `generalBufferCounter`, at most `fuel`
evaluations of its condition. -/
def chunkLoop : Nat → List Byte → Nat → Bool → Counters → Option BlockResult
  | 0, _, _, _, _ => none
  | fuel + 1, chunk, i, inWord, counters =>
    if i < chunk.length then
      let d := DecodeRune (chunk.drop i)
      let r := d.1
      let size := d.2
      if r = RuneError ∧ size = 1 then some (inWord, counters, some Error.invalidUTF8)
      else
        let counters := { counters with Chars := counters.Chars + 1 }
        let counters :=
          if r = 0x0A then { counters with Lines := counters.Lines + 1 } else counters
        if IsSpace r then chunkLoop fuel chunk (i + size) false counters
        else if !inWord then
          chunkLoop fuel chunk (i + size) true { counters with Words := counters.Words + 1 }
        else chunkLoop fuel chunk (i + size) inWord counters
    else some (inWord, counters, none)

/-- The outer loop of `generalBufferCounter`, at most `fuel` reads. -/
def bufferLoop : Nat → Source → Bool → Counters → Option Result
  | 0, _, _, _ => none
  | fuel + 1, src, inWord, counters =>
    let rd := Read src
    let chunk := rd.1.1
    let err := rd.1.2
    let n := chunk.length
    let inner : Option BlockResult :=
      if n > 0 then
        chunkLoop (n + 1) chunk 0 inWord { counters with Bytes := counters.Bytes + n }
      else some (inWord, counters, none)
    match inner with
    | none => none
    | some (_, counters, some e) => some (some counters, some e)
    | some (inWord, counters, none) =>
      if err = some ReadError.EOF then some (some counters, none)
      else
        match err with
        | some e => some (some counters, some (Error.read e))
        | none => bufferLoop fuel rd.2 inWord counters

/-- The function `generalBufferCounter`.  A source makes `blocks.length + 1`
reads. -/
def generalBufferCounter (src : Source) : Option Result :=
  bufferLoop (src.blocks.length + 1) src false ⟨0, 0, 0, 0⟩

/-! ## Reference semantics

Fuel-free readings of the loops and the counts of a text, against which the
loops above are proved. -/

/-- The rune and width of every step of the decoding idiom
`for len(p) > 0 { r, size := utf8.DecodeRune(p); p = p[size:] }`, at most
`fuel` steps. -/
def decodeSteps : Nat → List Byte → List (Nat × Nat)
  | 0, _ => []
  | fuel + 1, p =>
    if p.length = 0 then []
    else
      let d := DecodeRune p
      d :: decodeSteps fuel (p.drop d.2)

/-- The runes and widths a byte slice decodes to; an undecodable byte appears
as `(RuneError, 1)`. -/
def decode (p : List Byte) : List (Nat × Nat) := decodeSteps p.length p

/-- The update both loops make for one decoded rune: `Chars`, `Lines`, the
word flag and `Words`. -/
def tally (s : Bool × Counters) (r : Nat) : Bool × Counters :=
  let counters := { s.2 with Chars := s.2.Chars + 1 }
  let counters := if r = 0x0A then { counters with Lines := counters.Lines + 1 } else counters
  if IsSpace r then (false, counters)
  else if !s.1 then (true, { counters with Words := counters.Words + 1 })
  else (s.1, counters)

/-- One iteration of the loop of `generalRuneCounter` on a decoded rune and
its width. -/
def tallyRune (s : Bool × Counters) (d : Nat × Nat) : Bool × Counters :=
  tally (s.1, { s.2 with Bytes := s.2.Bytes + d.2 }) d.1

/-- What `generalRuneCounter` returns once `ReadRune` reports `stop`. -/
def runeFinish (stop : ReadError) (s : Bool × Counters) : Result :=
  match stop with
  | ReadError.EOF => (some s.2, none)
  | ReadError.other id => (none, some (Error.read (ReadError.other id)))

/-- The in-block loop of `generalBufferCounter` over the decoded steps of the
rest of the chunk: it stops at the first `(RuneError, 1)`. -/
def scan : Bool × Counters → List (Nat × Nat) → BlockResult
  | s, [] => (s.1, s.2, none)
  | s, d :: ds =>
    if d.1 = RuneError ∧ d.2 = 1 then (s.1, s.2, some Error.invalidUTF8)
    else scan (tally s d.1) ds

/-- One read of `generalBufferCounter`: the chunk is added to `Bytes` and
then decoded. -/
def runChunk (s : Bool × Counters) (chunk : List Byte) : BlockResult :=
  scan (s.1, { s.2 with Bytes := s.2.Bytes + chunk.length }) (decode chunk)

/-- What `generalBufferCounter` returns once a read has reported `stop` and
its chunk is decoded. -/
def bufferFinish (stop : ReadError) (s : Bool × Counters) : Result :=
  match stop with
  | ReadError.EOF => (some s.2, none)
  | ReadError.other id => (some s.2, some (Error.read (ReadError.other id)))

/-- The outer loop of `generalBufferCounter` over the reads of a source. -/
def runBlocks (stop : ReadError) : Bool × Counters → List (List Byte) → List Byte → Result
  | s, [], last =>
    match runChunk s last with
    | (_, counters, some e) => (some counters, some e)
    | (inWord, counters, none) => bufferFinish stop (inWord, counters)
  | s, b :: bs, last =>
    match runChunk s b with
    | (_, counters, some e) => (some counters, some e)
    | (inWord, counters, none) => runBlocks stop (inWord, counters) bs last

/-- Number of characters of a text that are not white space and are first in
the text (when `prevSpace`) or come right after a white-space character. -/
def wordStartsFrom (prevSpace : Bool) (rs : List Nat) : Nat :=
  ((prevSpace :: rs.map IsSpace).zip rs).countP (fun p => p.1 && !IsSpace p.2)

/-- Number of characters of a text that are not white space and are first in
the text or come right after a white-space character. -/
def wordStarts (rs : List Nat) : Nat := wordStartsFrom true rs

/-- Number of `'\n'` characters of a text. -/
def newlines (rs : List Nat) : Nat := rs.count 0x0A

/-- The four counts of a text. -/
def countText (rs : List Nat) : Counters :=
  ⟨newlines rs, wordStarts rs, (encodeText rs).length, rs.length⟩

/-- Byte offsets in the encoding of a text at which a character starts, and
the offset of its end. -/
def boundaries : List Nat → List Nat
  | [] => [0]
  | r :: rs => 0 :: (boundaries rs).map (fun pos => pos + RuneLen r)

/-- Number of bytes delivered once read number `k` (from 0) has returned. -/
def Source.cut (src : Source) (k : Nat) : Nat :=
  (src.blocks.take (k + 1)).flatten.length

/-- The word flag after a text: whether its last character is not white
space; the flag before it when the text is empty. -/
def endFlag : Bool → List Nat → Bool
  | w, [] => w
  | _, r :: rs => endFlag (!IsSpace r) rs

/-- Adds `n` to `Bytes`. -/
def addBytes (n : Nat) (s : Bool × Counters) : Bool × Counters :=
  (s.1, { s.2 with Bytes := s.2.Bytes + n })

/-- Number of maximal runs of non-white-space characters of a text: the
non-empty pieces left when the text is cut at every white-space character. -/
def wordRuns (rs : List Nat) : Nat :=
  ((rs.splitOnP IsSpace).filter (fun g => !g.isEmpty)).length

/-! ## `main.go`: flags and output -/

/-- The struct `Flags`. -/
structure Flags where
  CountBytes : Bool
  CountLines : Bool
  CountWords : Bool
  CountChars : Bool
  FileMode : Bool
  CompareMode : Bool
deriving DecidableEq, Repr

/-- The method `Flags.AnySet`. -/
def Flags.AnySet (f : Flags) : Bool :=
  f.CountBytes || f.CountLines || f.CountWords || f.CountChars

/-- The method `Flags.SetDefaults`. -/
def Flags.SetDefaults (f : Flags) : Flags :=
  { f with CountBytes := true, CountLines := true, CountWords := true }

/-- The global `state` after the first two statements of `wc(args)`: the file
mode is switched on when there are arguments, and the defaults are set when
no selector is. -/
def wcFlags (args : List String) (state : Flags) : Flags :=
  let state := if args.length ≠ 0 then { state with FileMode := true } else state
  if !state.AnySet then state.SetDefaults else state

/-- The text `fmt.Sprintf("%d", n)` of a non-negative `n`: its decimal digits. -/
def formatInt (n : Nat) : String := Nat.repr n

/-- Go's `strings.Join`. -/
def Join : List String → String → String
  | [], _ => ""
  | [a], _ => a
  | a :: b :: rest, sep => a ++ sep ++ Join (b :: rest) sep

/-- The function `printOutput` under the flags `state`: the text it writes to
standard output. -/
def printOutput (state : Flags) (arg : String) (c : Counters) : String :=
  let output : List String := []
  let output := if state.CountLines then output ++ [formatInt c.Lines] else output
  let output := if state.CountWords then output ++ [formatInt c.Words] else output
  let output := if state.CountBytes then output ++ [formatInt c.Bytes] else output
  let output := if state.CountChars then output ++ [formatInt c.Chars] else output
  let output := output ++ [arg]
  "\t" ++ Join output " " ++ "\n"

/-- The counters an output line shows, as the specification words it: the
selected ones, in the order Lines, Words, Bytes, Chars. -/
def selectedCounters (state : Flags) (c : Counters) : List Nat :=
  ([(state.CountLines, c.Lines), (state.CountWords, c.Words), (state.CountBytes, c.Bytes),
    (state.CountChars, c.Chars)].filter (fun p => p.1)).map (fun p => p.2)

/-- The output line as the specification words it: a tab, the decimal values
of the selected counters followed by the label, joined by single spaces, and
a newline. -/
def outputLine (state : Flags) (arg : String) (c : Counters) : String :=
  "\t" ++ Join ((selectedCounters state c).map formatInt ++ [arg]) " " ++ "\n"

/-- The failure point of a pass of `generalBufferCounter`: read `k` is the
first read that does not decode within its block, `good` are its bytes before
the first undecodable byte and `bad` its bytes from that byte on. -/
def Source.failsAt (src : Source) (k : Nat) (good bad : List Byte) : Prop :=
  k < (src.blocks ++ [src.last]).length ∧
  (src.blocks ++ [src.last]).getD k [] = good ++ bad ∧
  bad ≠ [] ∧ DecodeRune bad = (RuneError, 1) ∧
  (∀ chunk ∈ (src.blocks ++ [src.last]).take k, ∀ d ∈ decode chunk,
    ¬ (d.1 = RuneError ∧ d.2 = 1)) ∧
  (∀ d ∈ decode good, ¬ (d.1 = RuneError ∧ d.2 = 1))

instance (src : Source) (k : Nat) (good bad : List Byte) :
    Decidable (src.failsAt k good bad) := by
  unfold Source.failsAt; infer_instance

/-! ## Arithmetic reading of the bit operations -/

theorem toByte_val (x : Nat) : (toByte x).val = x % 256 := rfl

theorem and_maskx (x : Nat) : x &&& maskx = x % 64 := Nat.and_pow_two_sub_one_eq_mod x 6
theorem and_mask2 (x : Nat) : x &&& mask2 = x % 32 := Nat.and_pow_two_sub_one_eq_mod x 5
theorem and_mask3 (x : Nat) : x &&& mask3 = x % 16 := Nat.and_pow_two_sub_one_eq_mod x 4
theorem and_mask4 (x : Nat) : x &&& mask4 = x % 8 := Nat.and_pow_two_sub_one_eq_mod x 3
theorem and_seven (x : Nat) : x &&& 7 = x % 8 := Nat.and_pow_two_sub_one_eq_mod x 3

theorem or_eq_add (a b k : Nat) (h : b < 2 ^ k) : (a * 2 ^ k) ||| b = a * 2 ^ k + b := by
  rw [Nat.mul_comm]
  exact (Nat.mul_add_lt_is_or h a).symm

theorem tx_or (b : Nat) (h : b < 64) : tx ||| b = 128 + b := by
  have := or_eq_add 2 b 6 (by simpa using h)
  simpa [tx] using this

theorem t2_or (b : Nat) (h : b < 64) : t2 ||| b = 192 + b := by
  have := or_eq_add 3 b 6 (by simpa using h)
  simpa [t2] using this

theorem t3_or (b : Nat) (h : b < 32) : t3 ||| b = 224 + b := by
  have := or_eq_add 7 b 5 (by simpa using h)
  simpa [t3] using this

theorem t4_or (b : Nat) (h : b < 16) : t4 ||| b = 240 + b := by
  have := or_eq_add 15 b 4 (by simpa using h)
  simpa [t4] using this

set_option maxRecDepth 100000 in
/-- The table `first` by ranges of the lead byte. -/
theorem first_eq : ∀ b : Byte, first b =
    (if b.val < 0x80 then as else if b.val < 0xC2 then xx else if b.val < 0xE0 then s1
     else if b.val = 0xE0 then s2 else if b.val < 0xED then s3 else if b.val = 0xED then s4
     else if b.val < 0xF0 then s3 else if b.val = 0xF0 then s5 else if b.val < 0xF4 then s6
     else if b.val = 0xF4 then s7 else xx) := by
  decide

set_option maxRecDepth 100000 in
/-- The size class `first[b] & 7` is 2, 3 or 4 for every lead byte of a
multi-byte encoding. -/
theorem first_lt_as : ∀ b : Byte, first b < as →
    2 ≤ first b &&& 7 ∧ first b &&& 7 ≤ 4 ∧ 0xC2 ≤ b.val ∧ b.val ≤ 0xF4 := by
  decide

theorem DecodeRune_nil : DecodeRune [] = (RuneError, 0) := rfl

/-- A decode step on a non-empty slice consumes at least one byte and no more
than the slice holds. -/
theorem DecodeRune_size (p : List Byte) (hp : p ≠ []) :
    1 ≤ (DecodeRune p).2 ∧ (DecodeRune p).2 ≤ p.length ∧ (DecodeRune p).2 ≤ 4 := by
  have hlen : 1 ≤ p.length := by
    cases p with
    | nil => exact absurd rfl hp
    | cons a t => simp
  unfold DecodeRune
  simp only []
  split_ifs with h1 h2 h3 h4 h5 h6 h7 h8 <;> simp <;> try omega
  all_goals
    have hx := first_lt_as (p.getD 0 0) (by omega)
    omega

theorem or2 (a b : Nat) : ((a * 64) ||| (b % 64)) = a * 64 + b % 64 := by
  have hb := Nat.mod_lt b (show 0 < 64 by decide)
  exact or_eq_add a (b % 64) 6 (by norm_num; omega)

theorem or3 (a b c : Nat) :
    (((a * 4096) ||| ((b % 64) * 64)) ||| (c % 64)) = a * 4096 + (b % 64) * 64 + c % 64 := by
  have hb := Nat.mod_lt b (show 0 < 64 by decide)
  have h1 : (a * 4096) ||| ((b % 64) * 64) = a * 4096 + (b % 64) * 64 :=
    or_eq_add a ((b % 64) * 64) 12 (by norm_num; omega)
  have h2 : a * 4096 + b % 64 * 64 = (a * 64 + b % 64) * 64 := by ring
  rw [h1, h2, or2]

theorem or4 (a b c d : Nat) :
    ((((a * 262144) ||| ((b % 64) * 4096)) ||| ((c % 64) * 64)) ||| (d % 64))
      = a * 262144 + (b % 64) * 4096 + (c % 64) * 64 + d % 64 := by
  have hb := Nat.mod_lt b (show 0 < 64 by decide)
  have hc := Nat.mod_lt c (show 0 < 64 by decide)
  have h1 : (a * 262144) ||| ((b % 64) * 4096) = a * 262144 + (b % 64) * 4096 :=
    or_eq_add a ((b % 64) * 4096) 18 (by norm_num; omega)
  have h2 : (a * 262144 + b % 64 * 4096) ||| ((c % 64) * 64)
      = a * 262144 + b % 64 * 4096 + (c % 64) * 64 := by
    have e : a * 262144 + b % 64 * 4096 = (a * 64 + b % 64) * 4096 := by ring
    rw [e]
    exact or_eq_add (a * 64 + b % 64) ((c % 64) * 64) 12 (by norm_num; omega)
  have h3 : a * 262144 + b % 64 * 4096 + c % 64 * 64
      = (a * 4096 + b % 64 * 64 + c % 64) * 64 := by ring
  rw [h1, h2, h3, or2]

set_option maxRecDepth 100000 in
theorem first_ascii : ∀ b : Byte, b.val < 0x80 → first b = as := by decide

set_option maxRecDepth 100000 in
theorem first_two : ∀ b : Byte, 0xC2 ≤ b.val → b.val < 0xE0 → first b = s1 := by decide

set_option maxRecDepth 100000 in
theorem first_three : ∀ b : Byte, 0xE0 ≤ b.val → b.val < 0xF0 →
    first b = (if b.val = 0xE0 then s2 else if b.val = 0xED then s4 else s3) := by decide

set_option maxRecDepth 100000 in
theorem first_four : ∀ b : Byte, 0xF0 ≤ b.val → b.val ≤ 0xF4 →
    first b = (if b.val = 0xF0 then s5 else if b.val = 0xF4 then s7 else s6) := by decide

set_option maxRecDepth 100000 in
theorem first_invalid : ∀ b : Byte, (0x80 ≤ b.val ∧ b.val < 0xC2) ∨ 0xF4 < b.val →
    first b = xx := by decide

/-- A byte below `RuneSelf` decodes to itself. -/
theorem DecodeRune_ascii (p0 : Byte) (t : List Byte) (h : p0.val < 0x80) :
    DecodeRune (p0 :: t) = (p0.val, 1) := by
  simp [DecodeRune, first_ascii p0 h, as]

/-- A byte that cannot start an encoding is reported as `(RuneError, 1)`. -/
theorem DecodeRune_invalid (p0 : Byte) (t : List Byte)
    (h : (0x80 ≤ p0.val ∧ p0.val < 0xC2) ∨ 0xF4 < p0.val) :
    DecodeRune (p0 :: t) = (RuneError, 1) := by
  simp [DecodeRune, first_invalid p0 h, as, xx]

/-- Decoding a two-byte encoding. -/
theorem DecodeRune_two (p0 b1 : Byte) (t : List Byte)
    (h0 : 0xC2 ≤ p0.val) (h0' : p0.val < 0xE0) (h1 : 0x80 ≤ b1.val) (h1' : b1.val ≤ 0xBF) :
    DecodeRune (p0 :: b1 :: t) = ((p0.val % 32) * 64 + b1.val % 64, 2) := by
  have hlo : ¬ (b1.val < 128) := by omega
  have hhi : ¬ (191 < b1.val) := by omega
  simp [DecodeRune, first_two p0 h0 h0', as, s1, acceptRanges, locb, hicb, and_mask2,
    and_maskx, and_seven, Nat.shiftLeft_eq, or2, hlo, hhi]

/-- Decoding a three-byte encoding. -/
theorem DecodeRune_three (p0 b1 b2 : Byte) (t : List Byte)
    (h0 : 0xE0 ≤ p0.val) (h0' : p0.val < 0xF0)
    (h1 : (if p0.val = 0xE0 then 0xA0 else 0x80) ≤ b1.val)
    (h1' : b1.val ≤ (if p0.val = 0xED then 0x9F else 0xBF))
    (h2 : 0x80 ≤ b2.val) (h2' : b2.val ≤ 0xBF) :
    DecodeRune (p0 :: b1 :: b2 :: t)
      = ((p0.val % 16) * 4096 + (b1.val % 64) * 64 + b2.val % 64, 3) := by
  have hlo : ¬ (b2.val < 128) := by omega
  have hhi : ¬ (191 < b2.val) := by omega
  have hf := first_three p0 h0 h0'
  by_cases e0 : p0.val = 0xE0
  · have a1 : ¬ (b1.val < 160) := by simp [e0] at h1; omega
    have a2 : ¬ (191 < b1.val) := by simp [e0] at h1'; omega
    simp [e0] at hf
    simp [DecodeRune, hf, as, s2, acceptRanges, locb, hicb, and_mask3,
      and_maskx, and_seven, Nat.shiftLeft_eq, or3, hlo, hhi, a1, a2]
  · by_cases ed : p0.val = 0xED
    · have a1 : ¬ (b1.val < 128) := by simp [ed] at h1; omega
      have a2 : ¬ (159 < b1.val) := by simp [ed] at h1'; omega
      simp [ed] at hf
      simp [DecodeRune, hf, as, s4, acceptRanges, locb, hicb, and_mask3,
        and_maskx, and_seven, Nat.shiftLeft_eq, or3, hlo, hhi, a1, a2]
    · have a1 : ¬ (b1.val < 128) := by simp [e0] at h1; omega
      have a2 : ¬ (191 < b1.val) := by simp [ed] at h1'; omega
      simp [e0, ed] at hf
      simp [DecodeRune, hf, as, s3, acceptRanges, locb, hicb, and_mask3,
        and_maskx, and_seven, Nat.shiftLeft_eq, or3, hlo, hhi, a1, a2]

/-- Decoding a four-byte encoding. -/
theorem DecodeRune_four (p0 b1 b2 b3 : Byte) (t : List Byte)
    (h0 : 0xF0 ≤ p0.val) (h0' : p0.val ≤ 0xF4)
    (h1 : (if p0.val = 0xF0 then 0x90 else 0x80) ≤ b1.val)
    (h1' : b1.val ≤ (if p0.val = 0xF4 then 0x8F else 0xBF))
    (h2 : 0x80 ≤ b2.val) (h2' : b2.val ≤ 0xBF)
    (h3 : 0x80 ≤ b3.val) (h3' : b3.val ≤ 0xBF) :
    DecodeRune (p0 :: b1 :: b2 :: b3 :: t)
      = ((p0.val % 8) * 262144 + (b1.val % 64) * 4096 + (b2.val % 64) * 64 + b3.val % 64, 4) := by
  have hlo : ¬ (b2.val < 128) := by omega
  have hhi : ¬ (191 < b2.val) := by omega
  have hlo3 : ¬ (b3.val < 128) := by omega
  have hhi3 : ¬ (191 < b3.val) := by omega
  have hf := first_four p0 h0 h0'
  by_cases e0 : p0.val = 0xF0
  · have a1 : ¬ (b1.val < 144) := by simp [e0] at h1; omega
    have a2 : ¬ (191 < b1.val) := by simp [e0] at h1'; omega
    simp [e0] at hf
    simp [DecodeRune, hf, as, s5, acceptRanges, locb, hicb, and_mask4,
      and_maskx, and_seven, Nat.shiftLeft_eq, or4, hlo, hhi, hlo3, hhi3, a1, a2]
  · by_cases ed : p0.val = 0xF4
    · have a1 : ¬ (b1.val < 128) := by simp [ed] at h1; omega
      have a2 : ¬ (143 < b1.val) := by simp [ed] at h1'; omega
      simp [ed] at hf
      simp [DecodeRune, hf, as, s7, acceptRanges, locb, hicb, and_mask4,
        and_maskx, and_seven, Nat.shiftLeft_eq, or4, hlo, hhi, hlo3, hhi3, a1, a2]
    · have a1 : ¬ (b1.val < 128) := by simp [e0] at h1; omega
      have a2 : ¬ (191 < b1.val) := by simp [ed] at h1'; omega
      simp [e0, ed] at hf
      simp [DecodeRune, hf, as, s6, acceptRanges, locb, hicb, and_mask4,
        and_maskx, and_seven, Nat.shiftLeft_eq, or4, hlo, hhi, hlo3, hhi3, a1, a2]

/-! ## The encoder, byte by byte -/

theorem enc_cont (x : Nat) : (toByte (tx ||| ((toByte x).val &&& maskx))).val = 128 + x % 64 := by
  have h : (toByte x).val &&& maskx = x % 64 := by
    rw [and_maskx, toByte_val]; omega
  rw [h, tx_or _ (Nat.mod_lt _ (by decide)), toByte_val]
  omega

theorem enc2_lead (r : Nat) (h : r ≤ 0x7FF) :
    (toByte (t2 ||| (toByte (r >>> 6)).val)).val = 192 + r / 64 := by
  have h1 : (toByte (r >>> 6)).val = r / 64 := by
    rw [toByte_val, Nat.shiftRight_eq_div_pow]; norm_num; omega
  rw [h1, t2_or _ (by omega), toByte_val]
  omega

theorem enc3_lead (r : Nat) (h : r ≤ 0xFFFF) :
    (toByte (t3 ||| (toByte (r >>> 12)).val)).val = 224 + r / 4096 := by
  have h1 : (toByte (r >>> 12)).val = r / 4096 := by
    rw [toByte_val, Nat.shiftRight_eq_div_pow]; norm_num; omega
  rw [h1, t3_or _ (by omega), toByte_val]
  omega

theorem enc4_lead (r : Nat) (h : r ≤ 0x10FFFF) :
    (toByte (t4 ||| (toByte (r >>> 18)).val)).val = 240 + r / 262144 := by
  have h1 : (toByte (r >>> 18)).val = r / 262144 := by
    rw [toByte_val, Nat.shiftRight_eq_div_pow]; norm_num; omega
  rw [h1, t4_or _ (by omega), toByte_val]
  omega

theorem shr6 (r : Nat) : r >>> 6 = r / 64 := by
  rw [Nat.shiftRight_eq_div_pow]

theorem shr12 (r : Nat) : r >>> 12 = r / 4096 := by
  rw [Nat.shiftRight_eq_div_pow]

theorem ValidRune_iff (r : Nat) :
    ValidRune r = true ↔ r < 0xD800 ∨ (0xDFFF < r ∧ r ≤ 0x10FFFF) := by
  unfold ValidRune surrogateMin surrogateMax MaxRune
  split_ifs <;> simp <;> try omega

/-- The encoding of a scalar value has `RuneLen` bytes. -/
theorem EncodeRune_length (r : Nat) (hr : ValidRune r = true) :
    (EncodeRune r).length = RuneLen r := by
  rw [ValidRune_iff] at hr
  unfold EncodeRune RuneLen rune1Max rune2Max rune3Max MaxRune surrogateMin surrogateMax
  split_ifs <;> first | rfl | omega

/-- Decoding inverts encoding on every scalar value, whatever bytes follow. -/
theorem DecodeRune_EncodeRune (r : Nat) (hr : ValidRune r = true) (q : List Byte) :
    DecodeRune (EncodeRune r ++ q) = (r, RuneLen r) := by
  rw [ValidRune_iff] at hr
  unfold EncodeRune RuneLen rune1Max rune2Max rune3Max MaxRune surrogateMin surrogateMax
  by_cases h1 : r ≤ 0x7F
  · rw [if_pos h1, if_pos h1]
    have hv : (toByte r).val = r := by rw [toByte_val]; omega
    have := DecodeRune_ascii (toByte r) q (by omega)
    simpa [hv] using this
  · rw [if_neg h1, if_neg h1]
    by_cases h2 : r ≤ 0x7FF
    · rw [if_pos h2, if_pos h2]
      have e0 := enc2_lead r h2
      have e1 := enc_cont r
      have := DecodeRune_two (toByte (t2 ||| (toByte (r >>> 6)).val))
        (toByte (tx ||| ((toByte r).val &&& maskx))) q
        (by omega) (by omega) (by omega) (by omega)
      rw [e0, e1] at this
      simp only [List.cons_append, List.nil_append]
      rw [this]
      congr 1
      omega
    · rw [if_neg h2, if_neg h2]
      have h3 : ¬ (r > 0x10FFFF ∨ (0xD800 ≤ r ∧ r ≤ 0xDFFF)) := by omega
      rw [if_neg h3]
      by_cases h4 : r ≤ 0xFFFF
      · rw [if_pos h4, if_pos h4]
        have e0 := enc3_lead r h4
        have e1 : (toByte (tx ||| ((toByte (r >>> 6)).val &&& maskx))).val
            = 128 + r / 64 % 64 := by rw [enc_cont, shr6]
        have e2 := enc_cont r
        have := DecodeRune_three (toByte (t3 ||| (toByte (r >>> 12)).val))
          (toByte (tx ||| ((toByte (r >>> 6)).val &&& maskx)))
          (toByte (tx ||| ((toByte r).val &&& maskx))) q
          (by omega) (by omega) (by rw [e0, e1]; split_ifs <;> omega)
          (by rw [e0, e1]; split_ifs <;> omega) (by omega) (by omega)
        rw [e0, e1, e2] at this
        simp only [List.cons_append, List.nil_append]
        rw [this]
        congr 1
        omega
      · rw [if_neg h4, if_neg h4]
        have e0 := enc4_lead r (by omega)
        have e1 : (toByte (tx ||| ((toByte (r >>> 12)).val &&& maskx))).val
            = 128 + r / 4096 % 64 := by rw [enc_cont, shr12]
        have e2 : (toByte (tx ||| ((toByte (r >>> 6)).val &&& maskx))).val
            = 128 + r / 64 % 64 := by rw [enc_cont, shr6]
        have e3 := enc_cont r
        have := DecodeRune_four (toByte (t4 ||| (toByte (r >>> 18)).val))
          (toByte (tx ||| ((toByte (r >>> 12)).val &&& maskx)))
          (toByte (tx ||| ((toByte (r >>> 6)).val &&& maskx)))
          (toByte (tx ||| ((toByte r).val &&& maskx))) q
          (by omega) (by omega) (by rw [e0, e1]; split_ifs <;> omega)
          (by rw [e0, e1]; split_ifs <;> omega) (by omega) (by omega) (by omega) (by omega)
        rw [e0, e1, e2, e3] at this
        simp only [List.cons_append, List.nil_append]
        rw [this]
        congr 1
        omega

/-! ## The window of `ReadRune` -/

/-- The reading of `FullRune` on a non-empty slice. -/
theorem FullRune_iff (a : Byte) (t : List Byte) :
    FullRune (a :: t) = true ↔
      t.length + 1 ≥ first a &&& 7 ∨
      (t.length + 1 > 1 ∧ ((t.getD 0 0).val < (acceptRanges (first a >>> 4)).lo ∨
        (acceptRanges (first a >>> 4)).hi < (t.getD 0 0).val)) ∨
      (t.length + 1 > 2 ∧ ((t.getD 1 0).val < locb ∨ hicb < (t.getD 1 0).val)) := by
  have hn : ¬ (t.length + 1 = 0) := by omega
  simp only [FullRune, List.length_cons, List.getD_cons_zero, List.getD_cons_succ, hn, if_false]
  by_cases h1 : t.length + 1 ≥ first a &&& 7
  · simp only [h1, if_true, true_or]
  · by_cases h2 : t.length + 1 > 1 ∧ ((t.getD 0 0).val < (acceptRanges (first a >>> 4)).lo ∨
        (acceptRanges (first a >>> 4)).hi < (t.getD 0 0).val)
    · simp only [h1, h2, if_true, if_false, or_true, true_or, and_self]
    · by_cases h3 : t.length + 1 > 2 ∧ ((t.getD 1 0).val < locb ∨ hicb < (t.getD 1 0).val)
      · simp only [h1, h2, h3, if_true, if_false, or_true, and_self]
      · simp only [h1, h2, h3, if_false, or_self, Bool.false_eq_true]

/-- The window of `bufio.Reader.ReadRune`: once it holds `UTFMax` bytes or a
full rune, decoding it gives what decoding the whole unread stream gives. -/
theorem DecodeRune_window (w rest : List Byte)
    (h : UTFMax ≤ w.length ∨ FullRune w = true) :
    DecodeRune (w ++ rest) = DecodeRune w := by
  cases w with
  | nil =>
    rcases h with h | h
    · simp [UTFMax] at h
    · simp [FullRune] at h
  | cons a t =>
    by_cases hx : first a ≥ as
    · simp [DecodeRune, hx]
    · have hsz := first_lt_as a (by omega)
      rw [FullRune_iff] at h
      have hg0 : ∀ i, i < t.length → (t ++ rest).getD i 0 = t.getD i 0 := by
        intro i hi
        simp [List.getD_eq_getElem?_getD, List.getElem?_append_left hi]
      simp only [DecodeRune, List.cons_append, List.length_cons, List.length_append,
        List.getD_cons_zero, List.getD_cons_succ, hx, if_false]
      simp only [UTFMax, List.length_cons] at h
      generalize first a &&& 7 = sz at *
      generalize acceptRanges (first a >>> 4) = acc at *
      generalize ((a.val &&& mask2) <<< 6) = e2 at *
      generalize ((a.val &&& mask3) <<< 12) = e3 at *
      generalize ((a.val &&& mask4) <<< 18) = e4 at *
      have c1 : ¬ (t.length + rest.length + 1 < 1) := by omega
      have c2 : ¬ (t.length + 1 < 1) := by omega
      rw [if_neg c1, if_neg c2]
      by_cases hn : t.length + 1 < sz
      · rw [if_pos hn]
        by_cases hL : t.length + rest.length + 1 < sz
        · rw [if_pos hL]
        · rw [if_neg hL]
          have ht1 : 1 ≤ t.length := by omega
          rw [hg0 0 (by omega)]
          by_cases hb1 : (t.getD 0 0).val < acc.lo ∨ acc.hi < (t.getD 0 0).val
          · rw [if_pos hb1]
          · rw [if_neg hb1]
            have hb2 : t.length + 1 > 2 ∧ ((t.getD 1 0).val < locb ∨ hicb < (t.getD 1 0).val) := by
              rcases h with h | h | h | h
              · omega
              · omega
              · exact absurd h.2 hb1
              · exact h
            rw [if_neg (by omega), hg0 1 (by omega), if_pos hb2.2]
      · have hL : ¬ (t.length + rest.length + 1 < sz) := by omega
        rw [if_neg hn, if_neg hL]
        have hsz' : sz = 2 ∨ sz = 3 ∨ sz = 4 := by omega
        rcases hsz' with rfl | rfl | rfl
        · rw [hg0 0 (by omega)]
          simp
        · rw [hg0 0 (by omega), hg0 1 (by omega)]
          simp
        · rw [hg0 0 (by omega), hg0 1 (by omega), hg0 2 (by omega)]

/-! ## The decoding of a slice -/

theorem decodeSteps_fuel (n : Nat) : ∀ (f1 f2 : Nat) (p : List Byte),
    p.length ≤ n → n ≤ f1 → n ≤ f2 → decodeSteps f1 p = decodeSteps f2 p := by
  induction n with
  | zero =>
    intro f1 f2 p hp _ _
    have : p.length = 0 := by omega
    cases f1 <;> cases f2 <;> simp [decodeSteps, this]
  | succ n ih =>
    intro f1 f2 p hp h1 h2
    obtain ⟨g1, rfl⟩ : ∃ g, f1 = g + 1 := ⟨f1 - 1, by omega⟩
    obtain ⟨g2, rfl⟩ : ∃ g, f2 = g + 1 := ⟨f2 - 1, by omega⟩
    by_cases h0 : p.length = 0
    · simp [decodeSteps, h0]
    · have hne : p ≠ [] := by intro h; simp [h] at h0
      have hs := DecodeRune_size p hne
      simp only [decodeSteps, h0, if_false]
      rw [ih g1 g2 (p.drop (DecodeRune p).2) (by rw [List.length_drop]; omega)
        (by omega) (by omega)]

theorem decode_nil : decode [] = [] := rfl

theorem decode_cons (p : List Byte) (hp : p ≠ []) :
    decode p = DecodeRune p :: decode (p.drop (DecodeRune p).2) := by
  have h0 : p.length ≠ 0 := by intro h; exact hp (List.length_eq_zero.mp h)
  have hs := DecodeRune_size p hp
  obtain ⟨g, hg⟩ : ∃ g, p.length = g + 1 := ⟨p.length - 1, by omega⟩
  unfold decode
  rw [hg]
  simp only [decodeSteps, h0, if_false]
  rw [decodeSteps_fuel (p.drop (DecodeRune p).2).length g (p.drop (DecodeRune p).2).length _
    (le_refl _) (by rw [List.length_drop]; omega) (le_refl _)]

/-- Every decoding step has width at least one. -/
theorem decode_width_pos (n : Nat) : ∀ p : List Byte, p.length ≤ n →
    ∀ d ∈ decode p, 1 ≤ d.2 := by
  induction n with
  | zero =>
    intro p hp d hd
    have : p = [] := List.length_eq_zero.mp (by omega)
    simp [this, decode_nil] at hd
  | succ n ih =>
    intro p hp d hd
    by_cases hne : p = []
    · simp [hne, decode_nil] at hd
    · have hs := DecodeRune_size p hne
      rw [decode_cons p hne] at hd
      rcases List.mem_cons.mp hd with h | h
      · rw [h]; exact hs.1
      · exact ih _ (by rw [List.length_drop]; omega) d h

/-- The widths of the decoding steps add up to the length of the slice. -/
theorem decode_width_sum (n : Nat) : ∀ p : List Byte, p.length ≤ n →
    ((decode p).map Prod.snd).sum = p.length := by
  induction n with
  | zero =>
    intro p hp
    have : p = [] := List.length_eq_zero.mp (by omega)
    simp [this, decode_nil]
  | succ n ih =>
    intro p hp
    by_cases hne : p = []
    · simp [hne, decode_nil]
    · have hs := DecodeRune_size p hne
      rw [decode_cons p hne]
      simp only [List.map_cons, List.sum_cons]
      rw [ih _ (by rw [List.length_drop]; omega), List.length_drop]
      omega

/-- The decoding of an encoded scalar value followed by more bytes. -/
theorem decode_EncodeRune (r : Nat) (hr : ValidRune r = true) (q : List Byte) :
    decode (EncodeRune r ++ q) = (r, RuneLen r) :: decode q := by
  have hl := EncodeRune_length r hr
  have hpos : 1 ≤ RuneLen r := by unfold RuneLen; split_ifs <;> omega
  have hne : EncodeRune r ++ q ≠ [] := by
    intro h
    have := congrArg List.length h
    rw [List.length_append, hl] at this
    simp at this
    omega
  rw [decode_cons _ hne, DecodeRune_EncodeRune r hr q]
  simp only
  rw [← hl, List.drop_left]

/-- The decoding of an encoded text followed by more bytes. -/
theorem decode_encodeText (rs : List Nat) (hrs : ∀ r ∈ rs, ValidRune r = true)
    (q : List Byte) :
    decode (encodeText rs ++ q) = rs.map (fun r => (r, RuneLen r)) ++ decode q := by
  induction rs with
  | nil => simp [encodeText]
  | cons r rs ih =>
    have hr := hrs r (List.mem_cons_self _ _)
    have := ih (fun x hx => hrs x (List.mem_cons_of_mem _ hx))
    simp only [encodeText, List.flatMap_cons, List.append_assoc] at this ⊢
    rw [decode_EncodeRune r hr, this]
    simp

/-! ## The loops against their fuel-free readings -/

theorem ReadRune_nil (stop : ReadError) : ReadRune [] stop = ((0, 0, some stop), []) := rfl

/-- On unread bytes `ReadRune` yields the first decoding step and no error. -/
theorem ReadRune_cons (p : List Byte) (stop : ReadError) (hp : p ≠ []) :
    ReadRune p stop
      = (((DecodeRune p).1, (DecodeRune p).2, none), p.drop (DecodeRune p).2) := by
  obtain ⟨b, t, rfl⟩ := List.exists_cons_of_ne_nil hp
  unfold ReadRune
  by_cases h : b.val < 0x80
  · have := DecodeRune_ascii b t h
    simp [RuneSelf, this]
  · have h' : 128 ≤ b.val := by omega
    simp [RuneSelf, h']

/-- The loop of `generalRuneCounter` ends within `unread.length + 1`
iterations, with the tally of the decoded steps. -/
theorem runeLoop_eq (stop : ReadError) : ∀ (fuel : Nat) (p : List Byte) (w : Bool)
    (c : Counters), p.length < fuel →
    runeLoop fuel p stop w c = some (runeFinish stop ((decode p).foldl tallyRune (w, c))) := by
  intro fuel
  induction fuel with
  | zero => intro p w c h; omega
  | succ fuel ih =>
    intro p w c h
    by_cases hp : p = []
    · subst hp
      cases stop <;> simp [runeLoop, ReadRune_nil, decode_nil, runeFinish]
    · have hs := DecodeRune_size p hp
      have hlen : (p.drop (DecodeRune p).2).length < fuel := by
        rw [List.length_drop]; omega
      rw [decode_cons p hp, List.foldl_cons]
      simp only [runeLoop, ReadRune_cons p stop hp]
      simp only [reduceCtorEq, if_false]
      by_cases hsp : IsSpace (DecodeRune p).1 = true
      · rw [if_pos hsp, ih _ _ _ hlen]
        simp [tallyRune, tally, hsp]
      · rw [if_neg hsp]
        cases w
        · simp only [Bool.not_false, if_true]
          rw [ih _ _ _ hlen]
          simp [tallyRune, tally, hsp]
        · simp only [Bool.not_true, Bool.false_eq_true, if_false]
          rw [ih _ _ _ hlen]
          simp [tallyRune, tally, hsp]

/-- The function `generalRuneCounter` always returns: the tally of the decoded
steps of its input. -/
theorem generalRuneCounter_eq (input : List Byte) (stop : ReadError) :
    generalRuneCounter input stop
      = some (runeFinish stop ((decode input).foldl tallyRune (false, ⟨0, 0, 0, 0⟩))) :=
  runeLoop_eq stop _ input false _ (Nat.lt_succ_self _)

/-- The in-block loop ends within `len(chunk) - i + 1` evaluations of its
condition, with the scan of the decoded steps of `chunk[i:]`. -/
theorem chunkLoop_eq (chunk : List Byte) : ∀ (fuel i : Nat) (w : Bool) (c : Counters),
    chunk.length - i < fuel →
    chunkLoop fuel chunk i w c = some (scan (w, c) (decode (chunk.drop i))) := by
  intro fuel
  induction fuel with
  | zero => intro i w c h; omega
  | succ fuel ih =>
    intro i w c h
    by_cases hi : i < chunk.length
    · have hp : chunk.drop i ≠ [] := by
        intro h0
        have := congrArg List.length h0
        rw [List.length_drop] at this
        simp at this
        omega
      have hs := DecodeRune_size (chunk.drop i) hp
      rw [List.length_drop] at hs
      have hfuel : chunk.length - (i + (DecodeRune (chunk.drop i)).2) < fuel := by omega
      rw [decode_cons _ hp, List.drop_drop]
      simp only [chunkLoop, if_pos hi, scan]
      by_cases hbad : (DecodeRune (chunk.drop i)).1 = RuneError ∧ (DecodeRune (chunk.drop i)).2 = 1
      · rw [if_pos hbad, if_pos hbad]
      · rw [if_neg hbad, if_neg hbad]
        by_cases hsp : IsSpace (DecodeRune (chunk.drop i)).1 = true
        · rw [if_pos hsp, ih _ _ _ hfuel]
          simp [tally, hsp, Nat.add_comm]
        · rw [if_neg hsp]
          cases w
          · simp only [Bool.not_false, if_true]
            rw [ih _ _ _ hfuel]
            simp [tally, hsp, Nat.add_comm]
          · simp only [Bool.not_true, Bool.false_eq_true, if_false]
            rw [ih _ _ _ hfuel]
            simp [tally, hsp, Nat.add_comm]
    · have hp : chunk.drop i = [] := List.drop_eq_nil_of_le (by omega)
      simp [chunkLoop, hi, hp, decode_nil, scan]

/-- The outer loop of `generalBufferCounter` ends within `blocks.length + 1`
reads. -/
theorem bufferLoop_eq : ∀ (fuel : Nat) (src : Source) (w : Bool) (c : Counters),
    src.blocks.length < fuel →
    bufferLoop fuel src w c = some (runBlocks src.stop (w, c) src.blocks src.last) := by
  intro fuel
  induction fuel with
  | zero => intro src w c h; omega
  | succ fuel ih =>
    intro src w c h
    have hinner : ∀ chunk : List Byte,
        (if chunk.length > 0 then
            chunkLoop (chunk.length + 1) chunk 0 w { c with Bytes := c.Bytes + chunk.length }
          else some (w, c, none)) = some (runChunk (w, c) chunk) := by
      intro chunk
      by_cases h0 : chunk.length > 0
      · rw [if_pos h0, chunkLoop_eq chunk _ 0 w _ (by omega)]
        simp [runChunk]
      · have : chunk = [] := List.length_eq_zero.mp (by omega)
        subst this
        simp [runChunk, decode_nil, scan]
    obtain ⟨blocks, last, stop⟩ := src
    cases blocks with
    | nil =>
      simp only [bufferLoop, Read, hinner last, runBlocks]
      rcases hrc : runChunk (w, c) last with ⟨w', c', e'⟩
      cases e' with
      | some e => simp
      | none => cases stop <;> simp [bufferFinish]
    | cons b bs =>
      simp only [bufferLoop, Read, hinner b, runBlocks]
      rcases hrc : runChunk (w, c) b with ⟨w', c', e'⟩
      cases e' with
      | some e => simp
      | none =>
        simp only [reduceCtorEq, if_false]
        rw [ih ⟨bs, last, stop⟩ w' c' (by simpa using h)]

/-- The function `generalBufferCounter` always returns: the run of its reads. -/
theorem generalBufferCounter_eq (src : Source) :
    generalBufferCounter src
      = some (runBlocks src.stop (false, ⟨0, 0, 0, 0⟩) src.blocks src.last) :=
  bufferLoop_eq _ src false _ (Nat.lt_succ_self _)

/-! ## The tally of a text -/

theorem wordStartsFrom_nil (prev : Bool) : wordStartsFrom prev [] = 0 := by
  simp [wordStartsFrom]

theorem wordStartsFrom_cons (prev : Bool) (r : Nat) (rs : List Nat) :
    wordStartsFrom prev (r :: rs)
      = (if prev = true ∧ IsSpace r = false then 1 else 0) + wordStartsFrom (IsSpace r) rs := by
  simp only [wordStartsFrom, List.map_cons, List.zip_cons_cons, List.countP_cons]
  rw [Nat.add_comm]
  congr 1
  cases prev <;> cases IsSpace r <;> simp

theorem newlines_nil : newlines [] = 0 := rfl

theorem newlines_cons (r : Nat) (rs : List Nat) :
    newlines (r :: rs) = newlines rs + (if r = 0x0A then 1 else 0) := by
  unfold newlines
  rw [List.count_cons]
  by_cases h : r = 10 <;> simp [h]

/-- The update for one rune in closed form. -/
theorem tally_eq (w : Bool) (c : Counters) (r : Nat) :
    tally (w, c) r
      = (!IsSpace r, ⟨c.Lines + (if r = 0x0A then 1 else 0),
          c.Words + (if (!w) = true ∧ IsSpace r = false then 1 else 0), c.Bytes, c.Chars + 1⟩) := by
  unfold tally
  cases w <;> cases hsp : IsSpace r <;> by_cases h : r = 10 <;> simp [h]

/-- The tally of a text in closed form: the flag after it and the counts added. -/
theorem foldl_tally (rs : List Nat) : ∀ (w : Bool) (c : Counters),
    rs.foldl tally (w, c)
      = (endFlag w rs, ⟨c.Lines + newlines rs, c.Words + wordStartsFrom (!w) rs, c.Bytes,
          c.Chars + rs.length⟩) := by
  induction rs with
  | nil => intro w c; simp [endFlag, newlines_nil, wordStartsFrom_nil]
  | cons r rs ih =>
    intro w c
    rw [List.foldl_cons, newlines_cons, wordStartsFrom_cons, tally_eq, ih]
    simp only [endFlag, Bool.not_not, List.length_cons, Prod.mk.injEq, Counters.mk.injEq]
    refine ⟨trivial, ?_, ?_, trivial, ?_⟩ <;> omega

theorem tally_addBytes (n : Nat) (s : Bool × Counters) (r : Nat) :
    tally (addBytes n s) r = addBytes n (tally s r) := by
  obtain ⟨w, c⟩ := s
  simp only [tally, addBytes]
  split_ifs <;> rfl

theorem foldl_tally_addBytes (n : Nat) (rs : List Nat) : ∀ s : Bool × Counters,
    rs.foldl tally (addBytes n s) = addBytes n (rs.foldl tally s) := by
  induction rs with
  | nil => intro s; rfl
  | cons r rs ih => intro s; rw [List.foldl_cons, List.foldl_cons, tally_addBytes, ih]

theorem addBytes_addBytes (m n : Nat) (s : Bool × Counters) :
    addBytes m (addBytes n s) = addBytes (n + m) s := by
  simp [addBytes, Nat.add_assoc]

theorem addBytes_zero (s : Bool × Counters) : addBytes 0 s = s := by
  simp [addBytes]

/-- The loop of `generalRuneCounter` tallies the runes and adds the widths. -/
theorem foldl_tallyRune (ds : List (Nat × Nat)) : ∀ s : Bool × Counters,
    ds.foldl tallyRune s
      = addBytes (ds.map Prod.snd).sum ((ds.map Prod.fst).foldl tally s) := by
  induction ds with
  | nil => intro s; simp [addBytes_zero]
  | cons d ds ih =>
    intro s
    rw [List.foldl_cons, ih]
    have : tallyRune s d = tally (addBytes d.2 s) d.1 := rfl
    rw [this, tally_addBytes, foldl_tally_addBytes, addBytes_addBytes]
    simp

/-- Without an undecodable byte the in-block loop tallies every rune. -/
theorem scan_good (ds : List (Nat × Nat)) : ∀ s : Bool × Counters,
    (∀ d ∈ ds, ¬ (d.1 = RuneError ∧ d.2 = 1)) →
    scan s ds = (((ds.map Prod.fst).foldl tally s).1, ((ds.map Prod.fst).foldl tally s).2, none) := by
  induction ds with
  | nil => intro s _; rfl
  | cons d ds ih =>
    intro s h
    rw [scan, if_neg (h d (List.mem_cons_self _ _)),
      ih _ (fun x hx => h x (List.mem_cons_of_mem _ hx))]
    rfl

/-- The in-block loop returns the error at the first undecodable byte, with
the tally of the runes before it. -/
theorem scan_bad (ds rest : List (Nat × Nat)) : ∀ s : Bool × Counters,
    (∀ d ∈ ds, ¬ (d.1 = RuneError ∧ d.2 = 1)) →
    scan s (ds ++ (RuneError, 1) :: rest)
      = (((ds.map Prod.fst).foldl tally s).1, ((ds.map Prod.fst).foldl tally s).2,
          some Error.invalidUTF8) := by
  induction ds with
  | nil => intro s _; simp [scan]
  | cons d ds ih =>
    intro s h
    rw [List.cons_append, scan, if_neg (h d (List.mem_cons_self _ _)),
      ih _ (fun x hx => h x (List.mem_cons_of_mem _ hx))]
    rfl

/-! ## The counters on a well-formed text -/

theorem RuneLen_pos (r : Nat) : 1 ≤ RuneLen r := by
  unfold RuneLen; split_ifs <;> omega

theorem encodeText_nil : encodeText [] = [] := rfl

theorem encodeText_cons (r : Nat) (rs : List Nat) :
    encodeText (r :: rs) = EncodeRune r ++ encodeText rs := by
  simp [encodeText]

theorem encodeText_append (xs ys : List Nat) :
    encodeText (xs ++ ys) = encodeText xs ++ encodeText ys := by
  simp [encodeText]

/-- The encoding of a text has as many bytes as the widths of its characters. -/
theorem encodeText_length (rs : List Nat) (hrs : ∀ r ∈ rs, ValidRune r = true) :
    (encodeText rs).length = (rs.map RuneLen).sum := by
  induction rs with
  | nil => rfl
  | cons r rs ih =>
    rw [encodeText_cons, List.length_append, EncodeRune_length r (hrs r (List.mem_cons_self _ _)),
      ih (fun x hx => hrs x (List.mem_cons_of_mem _ hx))]
    simp

/-- A step that decodes a scalar value is never the error step. -/
theorem valid_not_bad (r : Nat) : ¬ (r = RuneError ∧ RuneLen r = 1) := by
  rintro ⟨h1, h2⟩
  rw [h1] at h2
  revert h2
  decide

theorem decode_text (rs : List Nat) (hrs : ∀ r ∈ rs, ValidRune r = true) :
    decode (encodeText rs) = rs.map (fun r => (r, RuneLen r)) := by
  have := decode_encodeText rs hrs []
  simpa [decode_nil] using this

/-- The function `generalRuneCounter` on a well-formed text: it reads to the
end of the stream and has counted the text. -/
theorem generalRuneCounter_text (rs : List Nat) (hrs : ∀ r ∈ rs, ValidRune r = true)
    (stop : ReadError) :
    generalRuneCounter (encodeText rs) stop
      = some (runeFinish stop (endFlag false rs, countText rs)) := by
  have e1 : (rs.map (fun r => (r, RuneLen r))).map Prod.fst = rs := by
    simp [Function.comp_def]
  have e2 : (rs.map (fun r => (r, RuneLen r))).map Prod.snd = rs.map RuneLen := by
    simp [Function.comp_def]
  rw [generalRuneCounter_eq, foldl_tallyRune, decode_text rs hrs, e1, e2, foldl_tally]
  simp [addBytes, countText, wordStarts, encodeText_length rs hrs]

/-- One read that delivers whole characters: they are all tallied. -/
theorem runChunk_text (rs : List Nat) (hrs : ∀ r ∈ rs, ValidRune r = true)
    (s : Bool × Counters) :
    runChunk s (encodeText rs)
      = ((addBytes (encodeText rs).length (rs.foldl tally s)).1,
         (addBytes (encodeText rs).length (rs.foldl tally s)).2, none) := by
  have hgood : ∀ d ∈ rs.map (fun r => (r, RuneLen r)), ¬ (d.1 = RuneError ∧ d.2 = 1) := by
    intro d hd
    obtain ⟨r, _, rfl⟩ := List.mem_map.mp hd
    exact valid_not_bad r
  have hs : (s.1, { s.2 with Bytes := s.2.Bytes + (encodeText rs).length })
      = addBytes (encodeText rs).length s := rfl
  unfold runChunk
  rw [decode_text rs hrs, scan_good _ _ hgood, hs, foldl_tally_addBytes]
  simp [Function.comp_def]

/-- Reads that each deliver whole characters: the text is tallied as one. -/
theorem runBlocks_text (stop : ReadError) (rl : List Nat)
    (hrl : ∀ r ∈ rl, ValidRune r = true) :
    ∀ (rss : List (List Nat)) (s : Bool × Counters),
    (∀ rs ∈ rss, ∀ r ∈ rs, ValidRune r = true) →
    runBlocks stop s (rss.map encodeText) (encodeText rl)
      = bufferFinish stop
          (addBytes (encodeText (rss.flatten ++ rl)).length ((rss.flatten ++ rl).foldl tally s)) := by
  intro rss
  induction rss with
  | nil =>
    intro s _
    simp only [List.map_nil, runBlocks, runChunk_text rl hrl, List.flatten_nil, List.nil_append]
  | cons rs rss ih =>
    intro s h
    have hrs := h rs (List.mem_cons_self _ _)
    simp only [List.map_cons, runBlocks, runChunk_text rs hrs]
    rw [ih _ (fun x hx => h x (List.mem_cons_of_mem _ hx))]
    simp only [List.flatten_cons, List.append_assoc, List.foldl_append, encodeText_append,
      List.length_append, Prod.mk.eta, foldl_tally_addBytes, addBytes_addBytes]

/-! ## Block boundaries and character boundaries -/

theorem zero_mem_boundaries (rs : List Nat) : 0 ∈ boundaries rs := by
  cases rs <;> simp [boundaries]

theorem mem_boundaries_cons (r : Nat) (rs : List Nat) (pos : Nat) :
    pos ∈ boundaries (r :: rs)
      ↔ pos = 0 ∨ (RuneLen r ≤ pos ∧ pos - RuneLen r ∈ boundaries rs) := by
  simp only [boundaries, List.mem_cons, List.mem_map]
  constructor
  · rintro (h | ⟨a, ha, rfl⟩)
    · exact Or.inl h
    · right
      refine ⟨by omega, ?_⟩
      rw [Nat.add_sub_cancel]
      exact ha
  · rintro (h | ⟨h1, h2⟩)
    · exact Or.inl h
    · exact Or.inr ⟨_, h2, by omega⟩

/-- Offsets past a prefix of the text are boundaries of the text exactly when
they are boundaries of the rest. -/
theorem mem_boundaries_append (pre post : List Nat) (hpre : ∀ r ∈ pre, ValidRune r = true)
    (pos : Nat) :
    (encodeText pre).length + pos ∈ boundaries (pre ++ post) ↔ pos ∈ boundaries post := by
  induction pre with
  | nil => simp [encodeText_nil]
  | cons r pre ih =>
    have hr := hpre r (List.mem_cons_self _ _)
    have hlen := EncodeRune_length r hr
    have hpos := RuneLen_pos r
    rw [List.cons_append, mem_boundaries_cons, encodeText_cons, List.length_append, hlen]
    have e : RuneLen r + (encodeText pre).length + pos - RuneLen r
        = (encodeText pre).length + pos := by omega
    rw [e, ih (fun x hx => hpre x (List.mem_cons_of_mem _ hx))]
    constructor
    · rintro (h | ⟨_, h⟩)
      · omega
      · exact h
    · intro h
      exact Or.inr ⟨by omega, h⟩

/-- A prefix of an encoded text that ends at a character boundary is the
encoding of a prefix of the text. -/
theorem head_at_boundary (rs : List Nat) (hrs : ∀ r ∈ rs, ValidRune r = true) :
    ∀ (b rest : List Byte), b ++ rest = encodeText rs → b.length ∈ boundaries rs →
    ∃ pre post, rs = pre ++ post ∧ b = encodeText pre ∧ rest = encodeText post := by
  induction rs with
  | nil =>
    intro b rest h _
    rw [encodeText_nil] at h
    obtain ⟨hb, hr⟩ := List.append_eq_nil.mp h
    exact ⟨[], [], rfl, by simp [hb, encodeText_nil], by simp [hr, encodeText_nil]⟩
  | cons r rs ih =>
    intro b rest h hb
    have hr := hrs r (List.mem_cons_self _ _)
    have hlen := EncodeRune_length r hr
    have hpos := RuneLen_pos r
    rw [mem_boundaries_cons] at hb
    rcases hb with h0 | ⟨h1, h2⟩
    · have hbnil : b = [] := List.length_eq_zero.mp h0
      subst hbnil
      exact ⟨[], r :: rs, rfl, rfl, by simpa using h⟩
    · rw [encodeText_cons] at h
      have hd : b = EncodeRune r ++ b.drop (RuneLen r) := by
        have h3 := congrArg (List.take (RuneLen r)) h
        rw [List.take_append_of_le_length (by omega), ← hlen, List.take_left] at h3
        rw [hlen] at h3
        conv_lhs => rw [← List.take_append_drop (RuneLen r) b]
        rw [h3]
      have hrest : b.drop (RuneLen r) ++ rest = encodeText rs := by
        have h3 := congrArg (List.drop (RuneLen r)) h
        rw [List.drop_append_of_le_length (by omega), ← hlen, List.drop_left] at h3
        rw [hlen] at h3
        exact h3
      obtain ⟨pre, post, e1, e2, e3⟩ :=
        ih (fun x hx => hrs x (List.mem_cons_of_mem _ hx)) (b.drop (RuneLen r)) rest hrest
          (by rw [List.length_drop]; exact h2)
      refine ⟨r :: pre, post, by rw [e1]; rfl, ?_, e3⟩
      rw [encodeText_cons, ← e2]
      exact hd

/-- A split of an encoded text whose every block ends at a character boundary
is a split of the text into blocks of whole characters. -/
theorem aligned_split : ∀ (blocks : List (List Byte)) (last : List Byte) (rs : List Nat),
    (∀ r ∈ rs, ValidRune r = true) → blocks.flatten ++ last = encodeText rs →
    (∀ k < blocks.length, (blocks.take (k + 1)).flatten.length ∈ boundaries rs) →
    ∃ (rss : List (List Nat)) (rl : List Nat), blocks = rss.map encodeText ∧
      last = encodeText rl ∧ rs = rss.flatten ++ rl := by
  intro blocks
  induction blocks with
  | nil =>
    intro last rs _ h _
    exact ⟨[], rs, rfl, by simpa using h, rfl⟩
  | cons b bs ih =>
    intro last rs hrs h hcut
    have h0 := hcut 0 (by simp)
    simp only [List.take_succ_cons, List.take_zero, List.flatten_cons, List.flatten_nil,
      List.append_nil] at h0
    rw [List.flatten_cons, List.append_assoc] at h
    obtain ⟨pre, post, e1, e2, e3⟩ := head_at_boundary rs hrs b _ h h0
    have hpre : ∀ r ∈ pre, ValidRune r = true :=
      fun r hr => hrs r (by rw [e1]; exact List.mem_append_left _ hr)
    have hpost : ∀ r ∈ post, ValidRune r = true :=
      fun r hr => hrs r (by rw [e1]; exact List.mem_append_right _ hr)
    have hcut' : ∀ k < bs.length, (bs.take (k + 1)).flatten.length ∈ boundaries post := by
      intro k hk
      have := hcut (k + 1) (by simpa using hk)
      rw [List.take_succ_cons, List.flatten_cons, List.length_append, e2, e1,
        mem_boundaries_append pre post hpre] at this
      exact this
    obtain ⟨rss, rl, f1, f2, f3⟩ := ih last post hpost e3 hcut'
    refine ⟨pre :: rss, rl, by rw [f1, e2]; rfl, f2, ?_⟩
    rw [e1, f3, List.flatten_cons, List.append_assoc]

/-! ## A block that ends inside a character -/

/-- A slice shorter than its lead byte announces decodes to `(RuneError, 1)`. -/
theorem DecodeRune_short (p0 : Byte) (t : List Byte) (h : first p0 < as)
    (hn : (p0 :: t).length < first p0 &&& 7) : DecodeRune (p0 :: t) = (RuneError, 1) := by
  have h' : ¬ (first p0 ≥ as) := by omega
  simp only [List.length_cons] at hn
  simp [DecodeRune, h', hn]

set_option maxRecDepth 100000 in
theorem first_size : ∀ b : Byte, 0xC2 ≤ b.val → b.val ≤ 0xF4 →
    first b < as ∧ first b &&& 7 =
      (if b.val < 0xE0 then 2 else if b.val < 0xF0 then 3 else 4) := by
  decide

/-- The lead byte of a multi-byte encoding announces the width of the rune. -/
theorem EncodeRune_head (r : Nat) (hr : ValidRune r = true) (h : 0x7F < r) :
    ∃ b0 tl, EncodeRune r = b0 :: tl ∧ first b0 < as ∧ first b0 &&& 7 = RuneLen r := by
  rw [ValidRune_iff] at hr
  unfold EncodeRune RuneLen rune1Max rune2Max rune3Max MaxRune surrogateMin surrogateMax
  have h1 : ¬ r ≤ 0x7F := by omega
  rw [if_neg h1, if_neg h1]
  by_cases h2 : r ≤ 0x7FF
  · rw [if_pos h2, if_pos h2]
    have e0 := enc2_lead r h2
    have := first_size (toByte (t2 ||| (toByte (r >>> 6)).val)) (by omega) (by omega)
    refine ⟨_, _, rfl, this.1, ?_⟩
    rw [this.2, e0, if_pos (by omega)]
  · rw [if_neg h2, if_neg h2]
    have h3 : ¬ (r > 0x10FFFF ∨ (0xD800 ≤ r ∧ r ≤ 0xDFFF)) := by omega
    rw [if_neg h3]
    by_cases h4 : r ≤ 0xFFFF
    · rw [if_pos h4, if_pos h4]
      have e0 := enc3_lead r h4
      have := first_size (toByte (t3 ||| (toByte (r >>> 12)).val)) (by omega) (by omega)
      refine ⟨_, _, rfl, this.1, ?_⟩
      rw [this.2, e0, if_neg (by omega), if_pos (by omega)]
    · rw [if_neg h4, if_neg h4]
      have e0 := enc4_lead r (by omega)
      have := first_size (toByte (t4 ||| (toByte (r >>> 18)).val)) (by omega) (by omega)
      refine ⟨_, _, rfl, this.1, ?_⟩
      rw [this.2, e0, if_neg (by omega), if_neg (by omega)]

/-- A proper, non-empty prefix of the encoding of a scalar value decodes to
`(RuneError, 1)`. -/
theorem DecodeRune_truncated (r : Nat) (hr : ValidRune r = true) (k : Nat)
    (hk : 0 < k) (hk' : k < RuneLen r) :
    DecodeRune ((EncodeRune r).take k) = (RuneError, 1) := by
  have h7 : 0x7F < r := by
    by_contra hle
    have : RuneLen r = 1 := by
      unfold RuneLen rune1Max
      rw [if_pos (by omega)]
    omega
  obtain ⟨b0, tl, e, hf, hsz⟩ := EncodeRune_head r hr h7
  have hlen := EncodeRune_length r hr
  rw [e] at hlen ⊢
  obtain ⟨j, rfl⟩ : ∃ j, k = j + 1 := ⟨k - 1, by omega⟩
  rw [List.take_succ_cons]
  apply DecodeRune_short b0 _ hf
  rw [hsz, List.length_cons, List.length_take]
  simp only [List.length_cons] at hlen
  omega

/-- A block that starts at a character boundary of a well-formed text and
ends inside a character makes the in-block loop stop with the error. -/
theorem scan_misaligned (rs : List Nat) (hrs : ∀ r ∈ rs, ValidRune r = true) :
    ∀ (b rest : List Byte) (s : Bool × Counters), b ++ rest = encodeText rs →
    b.length ∉ boundaries rs → (scan s (decode b)).2.2 = some Error.invalidUTF8 := by
  induction rs with
  | nil =>
    intro b rest s h hb
    rw [encodeText_nil] at h
    obtain ⟨hb0, _⟩ := List.append_eq_nil.mp h
    exact absurd (by simp [hb0, boundaries]) hb
  | cons r rs ih =>
    intro b rest s h hb
    have hr := hrs r (List.mem_cons_self _ _)
    have hlen := EncodeRune_length r hr
    have hpos := RuneLen_pos r
    have hb0 : b.length ≠ 0 := by
      intro h0
      exact hb (by rw [h0]; exact zero_mem_boundaries _)
    rw [encodeText_cons] at h
    by_cases hshort : b.length < RuneLen r
    · have hbt : b = (EncodeRune r).take b.length := by
        have h3 := congrArg (List.take b.length) h
        rw [List.take_left, List.take_append_of_le_length (by omega)] at h3
        exact h3
      have hne : b ≠ [] := fun h0 => hb0 (by rw [h0]; rfl)
      have hd : DecodeRune b = (RuneError, 1) := by
        rw [hbt]
        exact DecodeRune_truncated r hr b.length (by omega) hshort
      rw [decode_cons b hne, hd, scan, if_pos ⟨rfl, rfl⟩]
    · have hd : b = EncodeRune r ++ b.drop (RuneLen r) := by
        have h3 := congrArg (List.take (RuneLen r)) h
        rw [List.take_append_of_le_length (by omega), ← hlen, List.take_left] at h3
        rw [hlen] at h3
        conv_lhs => rw [← List.take_append_drop (RuneLen r) b]
        rw [h3]
      have hrest : b.drop (RuneLen r) ++ rest = encodeText rs := by
        have h3 := congrArg (List.drop (RuneLen r)) h
        rw [List.drop_append_of_le_length (by omega), ← hlen, List.drop_left] at h3
        rw [hlen] at h3
        exact h3
      have hb' : (b.drop (RuneLen r)).length ∉ boundaries rs := by
        intro hmem
        apply hb
        rw [mem_boundaries_cons]
        right
        refine ⟨by omega, ?_⟩
        rw [List.length_drop] at hmem
        exact hmem
      rw [hd, decode_EncodeRune r hr, scan, if_neg (valid_not_bad r)]
      exact ih (fun x hx => hrs x (List.mem_cons_of_mem _ hx)) _ rest _ hrest hb'

/-- A split of a well-formed text in which some block ends inside a character
makes `generalBufferCounter` stop with the invalid-encoding error. -/
theorem runBlocks_misaligned (stop : ReadError) :
    ∀ (blocks : List (List Byte)) (last : List Byte) (rs : List Nat) (s : Bool × Counters),
    (∀ r ∈ rs, ValidRune r = true) → blocks.flatten ++ last = encodeText rs →
    (∃ k, k < blocks.length ∧ (blocks.take (k + 1)).flatten.length ∉ boundaries rs) →
    ∃ c, runBlocks stop s blocks last = (some c, some Error.invalidUTF8) := by
  intro blocks
  induction blocks with
  | nil =>
    intro last rs s _ _ h
    obtain ⟨k, hk, _⟩ := h
    simp at hk
  | cons b bs ih =>
    intro last rs s hrs h hcut
    rw [List.flatten_cons, List.append_assoc] at h
    by_cases hb : b.length ∈ boundaries rs
    · obtain ⟨pre, post, e1, e2, e3⟩ := head_at_boundary rs hrs b _ h hb
      have hpre : ∀ r ∈ pre, ValidRune r = true :=
        fun r hr => hrs r (by rw [e1]; exact List.mem_append_left _ hr)
      have hpost : ∀ r ∈ post, ValidRune r = true :=
        fun r hr => hrs r (by rw [e1]; exact List.mem_append_right _ hr)
      have hcut' : ∃ k, k < bs.length ∧ (bs.take (k + 1)).flatten.length ∉ boundaries post := by
        obtain ⟨k, hk, hk'⟩ := hcut
        cases k with
        | zero =>
          simp only [List.take_succ_cons, List.take_zero, List.flatten_cons, List.flatten_nil,
            List.append_nil] at hk'
          exact absurd hb hk'
        | succ k =>
          refine ⟨k, by simpa using hk, ?_⟩
          intro hmem
          apply hk'
          rw [List.take_succ_cons, List.flatten_cons, List.length_append, e2, e1,
            mem_boundaries_append pre post hpre]
          exact hmem
      simp only [runBlocks]
      rw [e2, runChunk_text pre hpre]
      exact ih last post _ hpost e3 hcut'
    · have := scan_misaligned rs hrs b _ (s.1, { s.2 with Bytes := s.2.Bytes + b.length }) h hb
      simp only [runBlocks, runChunk]
      rcases hsc : scan (s.1, { s.2 with Bytes := s.2.Bytes + b.length }) (decode b)
        with ⟨w', c', e'⟩
      rw [hsc] at this
      simp only at this
      subst this
      exact ⟨c', rfl⟩

/-! ## The counters on an arbitrary input -/

theorem length_le_sum (l : List Nat) (h : ∀ x ∈ l, 1 ≤ x) : l.length ≤ l.sum := by
  induction l with
  | nil => simp
  | cons a l ih =>
    have ha := h a (List.mem_cons_self _ _)
    have := ih (fun x hx => h x (List.mem_cons_of_mem _ hx))
    simp only [List.length_cons, List.sum_cons]
    omega

theorem sum_eq_length_iff (l : List Nat) (h : ∀ x ∈ l, 1 ≤ x) :
    l.sum = l.length ↔ ∀ x ∈ l, x = 1 := by
  induction l with
  | nil => simp
  | cons a l ih =>
    have ha := h a (List.mem_cons_self _ _)
    have hl : ∀ x ∈ l, 1 ≤ x := fun x hx => h x (List.mem_cons_of_mem _ hx)
    have := ih hl
    have hle := length_le_sum l hl
    simp only [List.length_cons, List.sum_cons, List.mem_cons, forall_eq_or_imp]
    constructor
    · intro e
      have h1 : a = 1 := by omega
      exact ⟨h1, this.mp (by omega)⟩
    · rintro ⟨h1, h2⟩
      have := this.mpr h2
      omega

theorem decode_widths_pos (p : List Byte) : ∀ x ∈ (decode p).map Prod.snd, 1 ≤ x := by
  intro x hx
  obtain ⟨d, hd, rfl⟩ := List.mem_map.mp hx
  exact decode_width_pos p.length p (le_refl _) d hd

/-- A slice decodes to no more runes than it has bytes. -/
theorem decode_length_le (p : List Byte) : (decode p).length ≤ p.length := by
  have h1 := length_le_sum _ (decode_widths_pos p)
  rw [decode_width_sum p.length p (le_refl _), List.length_map] at h1
  exact h1

/-- The result of `generalRuneCounter` on a stream that ends: the counts of
the runes its input decodes to. -/
theorem generalRuneCounter_decode (input : List Byte) :
    generalRuneCounter input ReadError.EOF
      = some (some ⟨newlines ((decode input).map Prod.fst),
          wordStarts ((decode input).map Prod.fst), input.length, (decode input).length⟩,
          none) := by
  rw [generalRuneCounter_eq, foldl_tallyRune, foldl_tally,
    decode_width_sum input.length input (le_refl _)]
  simp [runeFinish, addBytes, wordStarts]

/-- The result of `generalRuneCounter` on a stream whose read fails. -/
theorem generalRuneCounter_fail (input : List Byte) (id : Nat) :
    generalRuneCounter input (ReadError.other id)
      = some (none, some (Error.read (ReadError.other id))) := by
  rw [generalRuneCounter_eq]
  rfl

theorem scan_bytes (ds : List (Nat × Nat)) : ∀ s : Bool × Counters,
    (scan s ds).2.1.Bytes = s.2.Bytes := by
  induction ds with
  | nil => intro s; rfl
  | cons d ds ih =>
    intro s
    rw [scan]
    split_ifs
    · rfl
    · rw [ih]
      obtain ⟨w, c⟩ := s
      rw [tally_eq]

theorem scan_chars_le (ds : List (Nat × Nat)) : ∀ s : Bool × Counters,
    (scan s ds).2.1.Chars ≤ s.2.Chars + ds.length := by
  induction ds with
  | nil => intro s; simp [scan]
  | cons d ds ih =>
    intro s
    rw [scan]
    split_ifs
    · simp
    · have := ih (tally s d.1)
      obtain ⟨w, c⟩ := s
      simp only [tally_eq, List.length_cons] at this ⊢
      omega

theorem scan_error (ds : List (Nat × Nat)) : ∀ s : Bool × Counters,
    (scan s ds).2.2 = none ∨ (scan s ds).2.2 = some Error.invalidUTF8 := by
  induction ds with
  | nil => intro s; exact Or.inl rfl
  | cons d ds ih =>
    intro s
    rw [scan]
    split_ifs
    · exact Or.inr rfl
    · exact ih _

theorem scan_none (ds : List (Nat × Nat)) : ∀ s : Bool × Counters,
    (scan s ds).2.2 = none → ∀ d ∈ ds, ¬ (d.1 = RuneError ∧ d.2 = 1) := by
  induction ds with
  | nil => intro s _ d hd; simp at hd
  | cons d ds ih =>
    intro s h x hx
    rw [scan] at h
    by_cases hbad : d.1 = RuneError ∧ d.2 = 1
    · rw [if_pos hbad] at h
      exact absurd h (by simp)
    · rw [if_neg hbad] at h
      rcases List.mem_cons.mp hx with e | e
      · rw [e]; exact hbad
      · exact ih _ h x e

/-- One read keeps `Chars` within `Bytes`. -/
theorem runChunk_chars_le (s : Bool × Counters) (chunk : List Byte)
    (h : s.2.Chars ≤ s.2.Bytes) : (runChunk s chunk).2.1.Chars ≤ (runChunk s chunk).2.1.Bytes := by
  have hs : runChunk s chunk = scan (addBytes chunk.length s) (decode chunk) := rfl
  rw [hs]
  have h1 : (scan (addBytes chunk.length s) (decode chunk)).2.1.Chars
      ≤ s.2.Chars + (decode chunk).length := scan_chars_le (decode chunk) _
  have h2 : (scan (addBytes chunk.length s) (decode chunk)).2.1.Bytes
      = s.2.Bytes + chunk.length := scan_bytes (decode chunk) _
  have h3 := decode_length_le chunk
  omega

/-- The pass of `generalBufferCounter` always hands back a `Counters`, and in
it `Chars` is within `Bytes`. -/
theorem runBlocks_chars_le (stop : ReadError) (last : List Byte) :
    ∀ (blocks : List (List Byte)) (s : Bool × Counters), s.2.Chars ≤ s.2.Bytes →
    ∃ c e, runBlocks stop s blocks last = (some c, e) ∧ c.Chars ≤ c.Bytes := by
  intro blocks
  induction blocks with
  | nil =>
    intro s h
    have := runChunk_chars_le s last h
    simp only [runBlocks]
    rcases hrc : runChunk s last with ⟨w', c', e'⟩
    rw [hrc] at this
    cases e' with
    | some e => exact ⟨c', some e, rfl, this⟩
    | none => cases stop with
      | EOF => exact ⟨c', none, rfl, this⟩
      | other id => exact ⟨c', _, rfl, this⟩
  | cons b bs ih =>
    intro s h
    have := runChunk_chars_le s b h
    simp only [runBlocks]
    rcases hrc : runChunk s b with ⟨w', c', e'⟩
    rw [hrc] at this
    cases e' with
    | some e => exact ⟨c', some e, rfl, this⟩
    | none => exact ih (w', c') this

/-- A pass of `generalBufferCounter` that returns no error: the stream ended,
no read held an undecodable byte, and the counters are the tally of the
runes of all the reads with every byte added. -/
theorem runBlocks_success (stop : ReadError) (last : List Byte) :
    ∀ (blocks : List (List Byte)) (s : Bool × Counters) (c : Counters),
    runBlocks stop s blocks last = (some c, none) →
    stop = ReadError.EOF ∧
    (∀ chunk ∈ blocks ++ [last], ∀ d ∈ decode chunk, ¬ (d.1 = RuneError ∧ d.2 = 1)) ∧
    c = (addBytes (blocks.flatten ++ last).length
          (((blocks ++ [last]).flatMap (fun chunk => (decode chunk).map Prod.fst)).foldl
            tally s)).2 := by
  intro blocks
  induction blocks with
  | nil =>
    intro s c h
    simp only [runBlocks] at h
    have hs : (s.1, { s.2 with Bytes := s.2.Bytes + last.length }) = addBytes last.length s := rfl
    rcases hrc : runChunk s last with ⟨w', c', e'⟩
    rw [hrc] at h
    cases e' with
    | some e => simp at h
    | none =>
      have hgood := scan_none (decode last) _ (by
        have := congrArg (fun x => x.2.2) hrc
        simpa [runChunk] using this)
      have hrc2 := hrc
      unfold runChunk at hrc2
      rw [scan_good _ _ hgood, hs, foldl_tally_addBytes] at hrc2
      cases stop with
      | other id => simp [bufferFinish] at h
      | EOF =>
        simp only [bufferFinish, Prod.mk.injEq, Option.some.injEq, and_true] at h
        refine ⟨rfl, ?_, ?_⟩
        · intro chunk hc
          simp only [List.nil_append, List.mem_singleton] at hc
          rw [hc]; exact hgood
        · simp only [List.flatten_nil, List.nil_append, List.flatMap_cons, List.flatMap_nil,
            List.append_nil]
          rw [← h]
          have := congrArg (fun x => x.2.1) hrc2
          simpa using this.symm
  | cons b bs ih =>
    intro s c h
    simp only [runBlocks] at h
    have hs : (s.1, { s.2 with Bytes := s.2.Bytes + b.length }) = addBytes b.length s := rfl
    rcases hrc : runChunk s b with ⟨w', c', e'⟩
    rw [hrc] at h
    cases e' with
    | some e => simp at h
    | none =>
      have hgood := scan_none (decode b) _ (by
        have := congrArg (fun x => x.2.2) hrc
        simpa [runChunk] using this)
      have hrc2 := hrc
      unfold runChunk at hrc2
      rw [scan_good _ _ hgood, hs, foldl_tally_addBytes] at hrc2
      have hw : (w', c') = addBytes b.length (((decode b).map Prod.fst).foldl tally s) := by
        have h1 := congrArg (fun x => x.1) hrc2
        have h2 := congrArg (fun x => x.2.1) hrc2
        simp only at h1 h2
        rw [← h1, ← h2]
      simp only at h
      obtain ⟨i1, i2, i3⟩ := ih (w', c') c h
      refine ⟨i1, ?_, ?_⟩
      · intro chunk hc
        rcases List.mem_cons.mp hc with e | e
        · rw [e]; exact hgood
        · exact i2 chunk e
      · rw [i3, hw, foldl_tally_addBytes, addBytes_addBytes]
        simp only [List.cons_append, List.flatMap_cons, List.foldl_append, List.flatten_cons,
          List.length_append, List.append_assoc]

/-! ## Single-byte characters and runs of words -/

set_option maxRecDepth 100000 in
theorem first_ge_as : ∀ b : Byte, first b ≥ as → first b % 2 = 1 ∨ b.val < 0x80 := by
  decide

/-- A step of width one is an ASCII byte or the error step. -/
theorem DecodeRune_width_one (p0 : Byte) (t : List Byte)
    (h : (DecodeRune (p0 :: t)).2 = 1) :
    p0.val < 0x80 ∨ DecodeRune (p0 :: t) = (RuneError, 1) := by
  by_cases hx : first p0 ≥ as
  · rcases first_ge_as p0 hx with h1 | h1
    · right
      simp [DecodeRune, hx, h1]
    · exact Or.inl h1
  · right
    revert h
    simp only [DecodeRune, List.length_cons, List.getD_cons_zero, hx, if_false]
    split_ifs <;> simp

/-- A slice of ASCII bytes decodes byte by byte. -/
theorem decode_ascii (p : List Byte) (h : ∀ b ∈ p, b.val < 0x80) :
    decode p = p.map (fun b => (b.val, 1)) := by
  induction p with
  | nil => rfl
  | cons b t ih =>
    have hb := h b (List.mem_cons_self _ _)
    rw [decode_cons _ (List.cons_ne_nil _ _), DecodeRune_ascii b t hb]
    simp only [List.drop_succ_cons, List.drop_zero, List.map_cons]
    rw [ih (fun x hx => h x (List.mem_cons_of_mem _ hx))]

/-- A slice whose every step has width one and is no error is all ASCII. -/
theorem ascii_of_widths (p : List Byte)
    (h : ∀ d ∈ decode p, d.2 = 1 ∧ ¬ (d.1 = RuneError ∧ d.2 = 1)) :
    ∀ b ∈ p, b.val < 0x80 := by
  induction p with
  | nil => intro b hb; simp at hb
  | cons b0 t ih =>
    have hd := decode_cons (b0 :: t) (List.cons_ne_nil _ _)
    have h0 := h (DecodeRune (b0 :: t)) (by rw [hd]; exact List.mem_cons_self _ _)
    have hb0 : b0.val < 0x80 := by
      rcases DecodeRune_width_one b0 t h0.1 with h1 | h1
      · exact h1
      · exact absurd (by rw [h1]; exact ⟨rfl, rfl⟩) h0.2
    rw [DecodeRune_ascii b0 t hb0] at hd
    simp only [List.drop_succ_cons, List.drop_zero] at hd
    intro b hb
    rcases List.mem_cons.mp hb with e | e
    · rw [e]; exact hb0
    · exact ih (fun d hd' => h d (by rw [hd]; exact List.mem_cons_of_mem _ hd')) b e

/-- On a slice without an undecodable byte, every step has width one exactly
when every byte is ASCII. -/
theorem widths_one_iff_ascii (p : List Byte)
    (hgood : ∀ d ∈ decode p, ¬ (d.1 = RuneError ∧ d.2 = 1)) :
    (∀ d ∈ decode p, d.2 = 1) ↔ ∀ b ∈ p, b.val < 0x80 := by
  constructor
  · intro h
    exact ascii_of_widths p (fun d hd => ⟨h d hd, hgood d hd⟩)
  · intro h d hd
    rw [decode_ascii p h] at hd
    obtain ⟨b, _, rfl⟩ := List.mem_map.mp hd
    rfl

/-- The widths of all the steps of all the reads add up to the bytes read. -/
theorem chunks_width_sum (chunks : List (List Byte)) :
    ((chunks.flatMap (fun chunk => (decode chunk).map Prod.snd))).sum = chunks.flatten.length := by
  induction chunks with
  | nil => rfl
  | cons ch chunks ih =>
    simp only [List.flatMap_cons, List.sum_append, List.flatten_cons, List.length_append, ih,
      decode_width_sum ch.length ch (le_refl _)]

theorem chunks_rune_count (chunks : List (List Byte)) :
    (chunks.flatMap (fun chunk => (decode chunk).map Prod.fst)).length
      = (chunks.flatMap (fun chunk => (decode chunk).map Prod.snd)).length := by
  induction chunks with
  | nil => rfl
  | cons ch chunks ih =>
    simp only [List.flatMap_cons, List.length_append, List.length_map, ih]

/-- The counts of the pieces a text is cut into at white space, against the
count by word starts. -/
theorem wordStartsFrom_splitOnP (rs : List Nat) :
    wordStartsFrom true rs
        = ((rs.splitOnP IsSpace).filter (fun g => !g.isEmpty)).length ∧
      wordStartsFrom false rs
        = (((rs.splitOnP IsSpace).tail).filter (fun g => !g.isEmpty)).length := by
  induction rs with
  | nil => simp [wordStartsFrom_nil, List.splitOnP_nil]
  | cons r rs ih =>
    rw [wordStartsFrom_cons, wordStartsFrom_cons, List.splitOnP_cons]
    by_cases hsp : IsSpace r = true
    · simp [hsp, ih.1]
    · have hsp' : IsSpace r = false := by simpa using hsp
      obtain ⟨g, gs, hg⟩ := List.exists_cons_of_ne_nil (List.splitOnP_ne_nil IsSpace rs)
      rw [hg] at ih
      simp only [hsp', hg, List.modifyHead_cons, List.tail_cons, Bool.false_eq_true, if_false,
        and_self, if_true, and_false, and_true] at ih ⊢
      refine ⟨?_, by simpa using ih.2⟩
      rw [ih.2]
      simp [List.filter_cons, Nat.add_comm]

/-- Counting word starts counts the maximal runs of non-white-space characters. -/
theorem wordStarts_eq_wordRuns (rs : List Nat) : wordStarts rs = wordRuns rs :=
  (wordStartsFrom_splitOnP rs).1

/-! ## The two counters on whole sources -/

theorem length_mem_boundaries (rs : List Nat) (hrs : ∀ r ∈ rs, ValidRune r = true) :
    (encodeText rs).length ∈ boundaries rs := by
  have := (mem_boundaries_append rs [] hrs 0).mpr (by simp [boundaries])
  simpa using this

/-- The function `generalBufferCounter` on a well-formed text delivered in
reads that each end at a character boundary: the counts of the text. -/
theorem generalBufferCounter_aligned (rs : List Nat) (hrs : ∀ r ∈ rs, ValidRune r = true)
    (src : Source) (hbytes : src.bytes = encodeText rs)
    (hcut : ∀ k, k < src.blocks.length → src.cut k ∈ boundaries rs) :
    generalBufferCounter src = some (bufferFinish src.stop (endFlag false rs, countText rs)) := by
  obtain ⟨rss, rl, e1, e2, e3⟩ := aligned_split src.blocks src.last rs hrs hbytes hcut
  have hrl : ∀ r ∈ rl, ValidRune r = true :=
    fun r hr => hrs r (by rw [e3]; exact List.mem_append_right _ hr)
  have hrss : ∀ x ∈ rss, ∀ r ∈ x, ValidRune r = true := by
    intro x hx r hr
    apply hrs r
    rw [e3]
    exact List.mem_append_left _ (List.mem_flatten.mpr ⟨x, hx, hr⟩)
  rw [generalBufferCounter_eq, e1, e2, runBlocks_text src.stop rl hrl rss _ hrss, ← e3,
    foldl_tally]
  simp [addBytes, countText, wordStarts]

/-- A pass of `generalBufferCounter` that returns no error: the stream ended,
no read held an undecodable byte, and the counters are the counts of the
runes of all the reads. -/
theorem generalBufferCounter_success (src : Source) (c : Counters)
    (h : generalBufferCounter src = some (some c, none)) :
    src.stop = ReadError.EOF ∧
    (∀ chunk ∈ src.blocks ++ [src.last], ∀ d ∈ decode chunk, ¬ (d.1 = RuneError ∧ d.2 = 1)) ∧
    c = ⟨newlines ((src.blocks ++ [src.last]).flatMap (fun chunk => (decode chunk).map Prod.fst)),
         wordStarts ((src.blocks ++ [src.last]).flatMap (fun chunk => (decode chunk).map Prod.fst)),
         src.bytes.length,
         ((src.blocks ++ [src.last]).flatMap (fun chunk => (decode chunk).map Prod.fst)).length⟩ := by
  rw [generalBufferCounter_eq] at h
  have h' := Option.some.inj h
  obtain ⟨h1, h2, h3⟩ := runBlocks_success src.stop src.last src.blocks _ c h'
  refine ⟨h1, h2, ?_⟩
  rw [h3, foldl_tally]
  simp [addBytes, wordStarts, Source.bytes]

/-- After a pass without error, `Bytes` equals `Chars` exactly when every
decoding step of every read has width one. -/
theorem success_bytes_eq_chars (src : Source) (c : Counters)
    (h : generalBufferCounter src = some (some c, none)) :
    c.Bytes = c.Chars ↔
      ∀ chunk ∈ src.blocks ++ [src.last], ∀ d ∈ decode chunk, d.2 = 1 := by
  obtain ⟨_, _, h3⟩ := generalBufferCounter_success src c h
  have hpos : ∀ x ∈ (src.blocks ++ [src.last]).flatMap (fun chunk => (decode chunk).map Prod.snd),
      1 ≤ x := by
    intro x hx
    obtain ⟨chunk, _, hx'⟩ := List.mem_flatMap.mp hx
    exact decode_widths_pos chunk x hx'
  have hsum := chunks_width_sum (src.blocks ++ [src.last])
  have hcnt := chunks_rune_count (src.blocks ++ [src.last])
  have hiff := sum_eq_length_iff _ hpos
  have hb : c.Bytes = src.bytes.length := by rw [h3]
  have hc : c.Chars = ((src.blocks ++ [src.last]).flatMap
      (fun chunk => (decode chunk).map Prod.fst)).length := by rw [h3]
  have hbytes : src.bytes.length = (src.blocks ++ [src.last]).flatten.length := by
    simp [Source.bytes]
  rw [hb, hc, hcnt, hbytes, ← hsum, hiff]
  constructor
  · intro hall chunk hchunk d hd
    exact hall d.2 (List.mem_flatMap.mpr ⟨chunk, hchunk, List.mem_map.mpr ⟨d, hd, rfl⟩⟩)
  · intro hall x hx
    obtain ⟨chunk, hchunk, hx'⟩ := List.mem_flatMap.mp hx
    obtain ⟨d, hd, rfl⟩ := List.mem_map.mp hx'
    exact hall chunk hchunk d hd

theorem IsSpace_large (r : Nat) (h : 0x3000 < r) : IsSpace r = false := by
  have h1 : ¬ r ≤ 0xFF := by omega
  have h2 : ¬ r ≤ 0x3000 := by omega
  simp [IsSpace, MaxLatin1, isExcludingLatin, White_Space_R16, White_Space_LatinOffset, h1, h2]

theorem EncodeRune_invalid (r : Nat) (h : ValidRune r = false) :
    EncodeRune r = [0xEF, 0xBF, 0xBD] := by
  have hv : ¬ (r < 0xD800 ∨ (0xDFFF < r ∧ r ≤ 0x10FFFF)) := by
    intro h'
    have := (ValidRune_iff r).mpr h'
    rw [h] at this
    exact absurd this (by simp)
  unfold EncodeRune rune1Max rune2Max MaxRune surrogateMin surrogateMax
  rw [if_neg (by omega), if_neg (by omega), if_pos (by omega)]
  decide

/-! ## A character that straddles a read boundary -/

theorem encodeText_replicate_ascii (n : Nat) :
    encodeText (List.replicate n 0x61) = List.replicate n (0x61 : Byte) := by
  induction n with
  | zero => rfl
  | succ n ih =>
    rw [List.replicate_succ, encodeText_cons, ih, List.replicate_succ]
    rfl

/-- The text of `n` letters "a" and one "é", read so that the first read ends
after the lead byte of "é": `generalBufferCounter` stops with the
invalid-encoding error. -/
theorem straddling_character_aborts (n : Nat) :
    ∃ c, generalBufferCounter
        ⟨[List.replicate n 0x61 ++ [0xC3], [0xA9]], [], ReadError.EOF⟩
      = some (some c, some Error.invalidUTF8) := by
  have hrs : ∀ r ∈ List.replicate n 0x61 ++ [0xE9], ValidRune r = true := by
    intro r hr
    rcases List.mem_append.mp hr with h | h
    · rw [(List.mem_replicate.mp h).2]; decide
    · rw [List.mem_singleton.mp h]; decide
  have hpre : ∀ r ∈ List.replicate n 0x61, ValidRune r = true :=
    fun r hr => hrs r (List.mem_append_left _ hr)
  have henc : encodeText (List.replicate n 0x61 ++ [0xE9])
      = List.replicate n (0x61 : Byte) ++ [0xC3, 0xA9] := by
    rw [encodeText_append, encodeText_replicate_ascii]
    rfl
  have hcut : (List.replicate n (0x61 : Byte) ++ [0xC3]).length
      ∉ boundaries (List.replicate n 0x61 ++ [0xE9]) := by
    have h1 : (List.replicate n (0x61 : Byte) ++ [0xC3]).length
        = (encodeText (List.replicate n 0x61)).length + 1 := by
      rw [encodeText_replicate_ascii]; simp
    rw [h1, mem_boundaries_append _ _ hpre]
    decide
  obtain ⟨c, hc⟩ := runBlocks_misaligned ReadError.EOF
    [List.replicate n 0x61 ++ [0xC3], [0xA9]] [] (List.replicate n 0x61 ++ [0xE9])
    (false, ⟨0, 0, 0, 0⟩) hrs (by rw [henc]; simp)
    ⟨0, by simp, by simpa using hcut⟩
  exact ⟨c, by rw [generalBufferCounter_eq]; exact congrArg some hc⟩

/-- The same text through `generalRuneCounter`, and the sizes of the reads. -/
theorem straddling_character_counted (n : Nat) (hn : n + 1 ≤ bufSize) :
    Source.fits ⟨[List.replicate n 0x61 ++ [0xC3], [0xA9]], [], ReadError.EOF⟩ ∧
    ∃ c, generalRuneCounter (List.replicate n 0x61 ++ [0xC3, 0xA9]) ReadError.EOF
      = some (some c, none) ∧ c.Bytes = n + 2 ∧ c.Chars = n + 1 := by
  constructor
  · refine ⟨?_, by simp [bufSize]⟩
    intro b hb
    simp only [List.mem_cons, List.mem_singleton, List.not_mem_nil, or_false] at hb
    rcases hb with h | h
    · rw [h, List.length_append, List.length_replicate]
      exact hn
    · rw [h]
      simp [bufSize]
  · have hrs : ∀ r ∈ List.replicate n 0x61 ++ [0xE9], ValidRune r = true := by
      intro r hr
      rcases List.mem_append.mp hr with h | h
      · rw [(List.mem_replicate.mp h).2]; decide
      · rw [List.mem_singleton.mp h]; decide
    have henc : encodeText (List.replicate n 0x61 ++ [0xE9])
        = List.replicate n (0x61 : Byte) ++ [0xC3, 0xA9] := by
      rw [encodeText_append, encodeText_replicate_ascii]
      rfl
    refine ⟨countText (List.replicate n 0x61 ++ [0xE9]), ?_, ?_, ?_⟩
    · rw [← henc, generalRuneCounter_text _ hrs]
      rfl
    · simp [countText, henc]
    · simp [countText]

/-- The stream of 8191 letters "a" and one "é" (8193 bytes), read through the
8192-byte buffer as 8192 bytes and then 1 byte: every read fits the buffer,
`generalRuneCounter` counts the text, `generalBufferCounter` stops with the
invalid-encoding error. -/
theorem straddling_character_at_buffer_size :
    (Source.fits ⟨[List.replicate 8191 0x61 ++ [0xC3], [0xA9]], [], ReadError.EOF⟩ ∧
      ∃ c, generalRuneCounter (List.replicate 8191 0x61 ++ [0xC3, 0xA9]) ReadError.EOF
        = some (some c, none) ∧ c.Bytes = 8191 + 2 ∧ c.Chars = 8191 + 1) ∧
    ∃ c, generalBufferCounter
        ⟨[List.replicate 8191 0x61 ++ [0xC3], [0xA9]], [], ReadError.EOF⟩
      = some (some c, some Error.invalidUTF8) :=
  ⟨straddling_character_counted 8191 (by decide), straddling_character_aborts 8191⟩

/-! ## The claims -/

/-- C1, counterexample: the stream that holds the single byte 0xFF, delivered
by one read, fits the buffer; `generalRuneCounter` returns counters for it,
`generalBufferCounter` returns the invalid-encoding error, so the two do not
both succeed with identical counters. -/
theorem both_succeed_fails_on_invalid_byte :
    Source.fits ⟨[[0xFF]], [], ReadError.EOF⟩ ∧
    generalRuneCounter [0xFF] ReadError.EOF = some (some ⟨0, 1, 1, 1⟩, none) ∧
    generalBufferCounter ⟨[[0xFF]], [], ReadError.EOF⟩
      = some (some ⟨0, 0, 1, 0⟩, some Error.invalidUTF8) ∧
    ¬ ∃ c₁ c₂ : Counters, generalRuneCounter [0xFF] ReadError.EOF = some (some c₁, none) ∧
        generalBufferCounter ⟨[[0xFF]], [], ReadError.EOF⟩ = some (some c₂, none) ∧ c₁ = c₂ := by
  refine ⟨by decide, by decide, by decide, ?_⟩
  rintro ⟨c₁, c₂, _, h2, _⟩
  have h : generalBufferCounter ⟨[[0xFF]], [], ReadError.EOF⟩
      = some (some ⟨0, 0, 1, 0⟩, some Error.invalidUTF8) := by decide
  rw [h] at h2
  simp at h2

/-- C1, as amended: for every well-formed UTF-8 text and every way the reads
deliver its bytes in which every read ends at a character boundary,
`generalRuneCounter` and `generalBufferCounter` both succeed at the end of the
stream and return the same counters, the counts of the text; a word may
straddle a read boundary. -/
theorem counters_agree_on_whole_characters (rs : List Nat)
    (hrs : ∀ r ∈ rs, ValidRune r = true) (src : Source)
    (hbytes : src.bytes = encodeText rs) (hstop : src.stop = ReadError.EOF)
    (hcut : ∀ k, k < src.blocks.length → src.cut k ∈ boundaries rs) :
    generalRuneCounter src.bytes src.stop = some (some (countText rs), none) ∧
    generalBufferCounter src = some (some (countText rs), none) := by
  constructor
  · rw [hbytes, hstop, generalRuneCounter_text rs hrs]
    rfl
  · rw [generalBufferCounter_aligned rs hrs src hbytes hcut, hstop]
    rfl

/-- C1, witness: the text "aé b" delivered as the reads "a", "é " and "b"; the
word "aé" straddles the first read boundary. -/
theorem counters_agree_on_whole_characters_witness :
    generalRuneCounter [0x61, 0xC3, 0xA9, 0x20, 0x62] ReadError.EOF
      = some (some ⟨0, 2, 5, 4⟩, none) ∧
    generalBufferCounter ⟨[[0x61], [0xC3, 0xA9, 0x20]], [0x62], ReadError.EOF⟩
      = some (some ⟨0, 2, 5, 4⟩, none) :=
  counters_agree_on_whole_characters [0x61, 0xE9, 0x20, 0x62] (by decide)
    ⟨[[0x61], [0xC3, 0xA9, 0x20]], [0x62], ReadError.EOF⟩ (by decide) rfl (by decide)

/-- C2, at the failing inputs: on the single byte 0xFF and on the lone lead
byte 0xC3 `generalRuneCounter` returns counters and no error (the byte is
counted as one character and one word), while `generalBufferCounter` returns
the invalid-encoding error. -/
theorem rune_counter_accepts_invalid_bytes :
    generalRuneCounter [0xFF] ReadError.EOF = some (some ⟨0, 1, 1, 1⟩, none) ∧
    generalRuneCounter [0xC3] ReadError.EOF = some (some ⟨0, 1, 1, 1⟩, none) ∧
    generalBufferCounter ⟨[[0xFF]], [], ReadError.EOF⟩
      = some (some ⟨0, 0, 1, 0⟩, some Error.invalidUTF8) ∧
    generalBufferCounter ⟨[[0xC3]], [], ReadError.EOF⟩
      = some (some ⟨0, 0, 1, 0⟩, some Error.invalidUTF8) := by
  decide

/-- C3: for every well-formed UTF-8 text, `generalRuneCounter` returns, and
its `Words` is the number of maximal runs of non-white-space characters of
the text, which is the number of non-white-space characters that are first in
the text or come right after a white-space character. -/
theorem words_counts_maximal_runs (rs : List Nat) (hrs : ∀ r ∈ rs, ValidRune r = true) :
    ∃ c, generalRuneCounter (encodeText rs) ReadError.EOF = some (some c, none) ∧
      c.Words = wordRuns rs ∧ c.Words = wordStarts rs := by
  refine ⟨countText rs, ?_, wordStarts_eq_wordRuns rs, rfl⟩
  rw [generalRuneCounter_text rs hrs]
  rfl

/-- C3, witness: "a b c" gives Words 3, Lines 0, Chars 5, Bytes 5. -/
theorem words_counts_maximal_runs_witness :
    generalRuneCounter [0x61, 0x20, 0x62, 0x20, 0x63] ReadError.EOF
        = some (some ⟨0, 3, 5, 5⟩, none) ∧
      wordRuns [0x61, 0x20, 0x62, 0x20, 0x63] = 3 ∧
      ∃ c, generalRuneCounter (encodeText [0x61, 0x20, 0x62, 0x20, 0x63]) ReadError.EOF
          = some (some c, none) ∧
        c.Words = wordRuns [0x61, 0x20, 0x62, 0x20, 0x63] ∧
        c.Words = wordStarts [0x61, 0x20, 0x62, 0x20, 0x63] :=
  ⟨by decide, by decide,
    words_counts_maximal_runs [0x61, 0x20, 0x62, 0x20, 0x63] (by decide)⟩

/-- C4: for every well-formed UTF-8 text and every split of its bytes into
reads in which every read ends at a character boundary, `generalBufferCounter`
returns what it returns when the same bytes arrive in a single read, and its
counters are the counts of the text: a word cut at a read boundary is counted
once. -/
theorem buffer_counts_independent_of_split (rs : List Nat)
    (hrs : ∀ r ∈ rs, ValidRune r = true) (src : Source)
    (hbytes : src.bytes = encodeText rs)
    (hcut : ∀ k, k < src.blocks.length → src.cut k ∈ boundaries rs) :
    generalBufferCounter src = generalBufferCounter ⟨[src.bytes], [], src.stop⟩ ∧
    (generalBufferCounter src).map Prod.fst = some (some (countText rs)) := by
  have h1 := generalBufferCounter_aligned rs hrs src hbytes hcut
  have h2 := generalBufferCounter_aligned rs hrs ⟨[src.bytes], [], src.stop⟩
    (by simp [Source.bytes] at hbytes ⊢; exact hbytes)
    (by
      intro k hk
      have hk0 : k = 0 := by simpa using hk
      subst hk0
      have := length_mem_boundaries rs hrs
      rw [← hbytes] at this
      simpa [Source.cut] using this)
  refine ⟨by rw [h1, h2], ?_⟩
  rw [h1]
  cases src.stop <;> rfl

/-- C4, witness: "ab cd" delivered as "a", "b c", "d" and as one read. -/
theorem buffer_counts_independent_of_split_witness :
    generalBufferCounter ⟨[[0x61], [0x62, 0x20, 0x63]], [0x64], ReadError.EOF⟩
      = generalBufferCounter ⟨[[0x61, 0x62, 0x20, 0x63, 0x64]], [], ReadError.EOF⟩ ∧
    (generalBufferCounter ⟨[[0x61], [0x62, 0x20, 0x63]], [0x64], ReadError.EOF⟩).map Prod.fst
      = some (some ⟨0, 2, 5, 5⟩) :=
  buffer_counts_independent_of_split [0x61, 0x62, 0x20, 0x63, 0x64] (by decide)
    ⟨[[0x61], [0x62, 0x20, 0x63]], [0x64], ReadError.EOF⟩ (by decide) (by decide)

/-- C5: for every well-formed UTF-8 text and every split of its bytes into
reads in which some read ends inside a character (the bytes delivered up to
the end of that read are not a whole number of characters),
`generalBufferCounter` aborts with the invalid-encoding error, although
`generalRuneCounter` counts the same bytes without error. -/
theorem buffer_aborts_when_read_splits_character (rs : List Nat)
    (hrs : ∀ r ∈ rs, ValidRune r = true) (src : Source)
    (hbytes : src.bytes = encodeText rs) (k : Nat) (hk : k < src.blocks.length)
    (hcut : src.cut k ∉ boundaries rs) :
    (∃ c, generalBufferCounter src = some (some c, some Error.invalidUTF8)) ∧
    generalRuneCounter src.bytes ReadError.EOF = some (some (countText rs), none) := by
  constructor
  · obtain ⟨c, hc⟩ := runBlocks_misaligned src.stop src.blocks src.last rs
      (false, ⟨0, 0, 0, 0⟩) hrs hbytes ⟨k, hk, hcut⟩
    exact ⟨c, by rw [generalBufferCounter_eq, hc]⟩
  · rw [hbytes, generalRuneCounter_text rs hrs]
    rfl

/-- C5, witness: "aé" delivered as the reads 61 C3 and A9. -/
theorem buffer_aborts_when_read_splits_character_witness :
    (∃ c, generalBufferCounter ⟨[[0x61, 0xC3], [0xA9]], [], ReadError.EOF⟩
        = some (some c, some Error.invalidUTF8)) ∧
    generalRuneCounter [0x61, 0xC3, 0xA9] ReadError.EOF = some (some ⟨0, 1, 3, 2⟩, none) :=
  buffer_aborts_when_read_splits_character [0x61, 0xE9] (by decide)
    ⟨[[0x61, 0xC3], [0xA9]], [], ReadError.EOF⟩ (by decide) 0 (by decide) (by decide)

/-- C6, counterexample: U+00A0 (no-break space) is a non-ASCII code point; on
its two-byte encoding both counters return Chars 1 and Bytes 2 but Words 0. -/
theorem no_break_space_is_no_word :
    (0x80 : Nat) ≤ 0xA0 ∧ EncodeRune 0xA0 = [0xC2, 0xA0] ∧
    generalRuneCounter (EncodeRune 0xA0) ReadError.EOF = some (some ⟨0, 0, 2, 1⟩, none) ∧
    generalBufferCounter ⟨[EncodeRune 0xA0], [], ReadError.EOF⟩
      = some (some ⟨0, 0, 2, 1⟩, none) ∧
    ¬ ∃ c : Counters,
        generalRuneCounter (EncodeRune 0xA0) ReadError.EOF = some (some c, none) ∧
        c.Chars = 1 ∧ c.Bytes = 2 ∧ c.Words = 1 := by
  refine ⟨by decide, by decide, by decide, by decide, ?_⟩
  rintro ⟨c, h, _, _, hw⟩
  have e : generalRuneCounter (EncodeRune 0xA0) ReadError.EOF
      = some (some ⟨0, 0, 2, 1⟩, none) := by decide
  rw [e] at h
  simp only [Option.some.injEq, Prod.mk.injEq, and_true] at h
  rw [← h] at hw
  exact absurd hw (by decide)

/-- C6, as amended: for every non-ASCII code point `c`, on exactly the UTF-8
encoding of `c` followed by the end of the stream, `generalRuneCounter`, and
`generalBufferCounter` when one read delivers the encoding, return Lines 0,
Chars 1, Bytes the number of bytes of the encoding (2 to 4), and Words 1 when
`c` is not white space, Words 0 when it is. -/
theorem single_rune_counts (c : Nat) (h80 : 0x80 ≤ c) :
    generalRuneCounter (EncodeRune c) ReadError.EOF
      = some (some ⟨0, if IsSpace c = true then 0 else 1, (EncodeRune c).length, 1⟩, none) ∧
    generalBufferCounter ⟨[EncodeRune c], [], ReadError.EOF⟩
      = some (some ⟨0, if IsSpace c = true then 0 else 1, (EncodeRune c).length, 1⟩, none) ∧
    2 ≤ (EncodeRune c).length ∧ (EncodeRune c).length ≤ 4 := by
  by_cases hv : ValidRune c = true
  · have hrs : ∀ r ∈ [c], ValidRune r = true := by
      intro r hr
      rw [List.mem_singleton.mp hr]
      exact hv
    have henc : encodeText [c] = EncodeRune c := by simp [encodeText]
    have hct : countText [c]
        = ⟨0, if IsSpace c = true then 0 else 1, (EncodeRune c).length, 1⟩ := by
      have hnl : ¬ c = 10 := by omega
      simp only [countText, henc, newlines, wordStarts, wordStartsFrom_cons,
        wordStartsFrom_nil, List.length_singleton, List.count_cons, List.count_nil]
      cases IsSpace c <;> simp [hnl]
    have h1 := generalRuneCounter_text [c] hrs ReadError.EOF
    have h2 := generalBufferCounter_aligned [c] hrs ⟨[EncodeRune c], [], ReadError.EOF⟩
      (by simp [Source.bytes, henc])
      (by
        intro k hk
        have hk0 : k = 0 := by simpa using hk
        subst hk0
        have := length_mem_boundaries [c] hrs
        rw [henc] at this
        simpa [Source.cut] using this)
    rw [henc, hct] at h1
    rw [hct] at h2
    refine ⟨h1, h2, ?_, ?_⟩
    · rw [EncodeRune_length c hv]
      unfold RuneLen rune1Max
      split_ifs <;> omega
    · rw [EncodeRune_length c hv]
      unfold RuneLen
      split_ifs <;> omega
  · have hv' : ValidRune c = false := by simpa using hv
    have hbig : 0x3000 < c := by
      by_contra hle
      have := (ValidRune_iff c).mpr (Or.inl (by omega))
      rw [hv'] at this
      exact absurd this (by simp)
    rw [EncodeRune_invalid c hv', IsSpace_large c hbig]
    decide

/-- C6, witness: U+00E9, encoded as C3 A9, gives Chars 1, Bytes 2, Words 1. -/
theorem single_rune_counts_witness :
    generalRuneCounter [0xC3, 0xA9] ReadError.EOF = some (some ⟨0, 1, 2, 1⟩, none) ∧
    generalBufferCounter ⟨[[0xC3, 0xA9]], [], ReadError.EOF⟩
      = some (some ⟨0, 1, 2, 1⟩, none) ∧
    2 ≤ (EncodeRune 0xE9).length ∧ (EncodeRune 0xE9).length ≤ 4 :=
  single_rune_counts 0xE9 (by decide)

/-- C7: on every input, the `Counters` that `generalRuneCounter` returns (it
returns one exactly when the stream ends without a read failure) and the
`Counters` that `generalBufferCounter` returns (it always returns one, with or
without an error) satisfy `Bytes >= Chars`. -/
theorem bytes_ge_chars (input : List Byte) (id : Nat) (src : Source) :
    (∃ c, generalRuneCounter input ReadError.EOF = some (some c, none) ∧ c.Bytes ≥ c.Chars) ∧
    generalRuneCounter input (ReadError.other id)
      = some (none, some (Error.read (ReadError.other id))) ∧
    (∃ c e, generalBufferCounter src = some (some c, e) ∧ c.Bytes ≥ c.Chars) := by
  refine ⟨⟨_, generalRuneCounter_decode input, decode_length_le input⟩,
    generalRuneCounter_fail input id, ?_⟩
  obtain ⟨c, e, h1, h2⟩ := runBlocks_chars_le src.stop src.last src.blocks
    (false, ⟨0, 0, 0, 0⟩) (le_refl _)
  exact ⟨c, e, by rw [generalBufferCounter_eq, h1], h2⟩

/-- C8: `generalRuneCounter` on any input that ends returns counters with
`Bytes = Chars` exactly when every decoding step has width one, and on a
well-formed text exactly when every byte is ASCII; whenever
`generalBufferCounter` returns without error, its `Bytes = Chars` exactly when
every decoding step of every read has width one, which is exactly when every
byte of the stream is ASCII. -/
theorem bytes_eq_chars_iff_single_byte (input : List Byte) (rs : List Nat)
    (hrs : ∀ r ∈ rs, ValidRune r = true) (src : Source) (c : Counters)
    (hsucc : generalBufferCounter src = some (some c, none)) :
    (∃ c₁, generalRuneCounter input ReadError.EOF = some (some c₁, none) ∧
      (c₁.Bytes = c₁.Chars ↔ ∀ d ∈ decode input, d.2 = 1)) ∧
    (∃ c₂, generalRuneCounter (encodeText rs) ReadError.EOF = some (some c₂, none) ∧
      (c₂.Bytes = c₂.Chars ↔ ∀ b ∈ encodeText rs, b.val < 0x80)) ∧
    (c.Bytes = c.Chars ↔ ∀ chunk ∈ src.blocks ++ [src.last], ∀ d ∈ decode chunk, d.2 = 1) ∧
    (c.Bytes = c.Chars ↔ ∀ b ∈ src.bytes, b.val < 0x80) := by
  have hrune : ∀ p : List Byte,
      (p.length = (decode p).length ↔ ∀ d ∈ decode p, d.2 = 1) := by
    intro p
    have h1 := sum_eq_length_iff _ (decode_widths_pos p)
    rw [decode_width_sum p.length p (le_refl _), List.length_map] at h1
    rw [h1]
    constructor
    · intro h d hd
      exact h d.2 (List.mem_map.mpr ⟨d, hd, rfl⟩)
    · intro h x hx
      obtain ⟨d, hd, rfl⟩ := List.mem_map.mp hx
      exact h d hd
  have hgood : ∀ d ∈ decode (encodeText rs), ¬ (d.1 = RuneError ∧ d.2 = 1) := by
    intro d hd
    rw [decode_text rs hrs] at hd
    obtain ⟨r, _, rfl⟩ := List.mem_map.mp hd
    exact valid_not_bad r
  obtain ⟨_, hdec, _⟩ := generalBufferCounter_success src c hsucc
  have h3 := success_bytes_eq_chars src c hsucc
  refine ⟨⟨_, generalRuneCounter_decode input, hrune input⟩,
    ⟨_, generalRuneCounter_decode (encodeText rs), ?_⟩, h3, ?_⟩
  · exact (hrune (encodeText rs)).trans (widths_one_iff_ascii _ hgood)
  · rw [h3]
    have hmem : ∀ b, b ∈ src.bytes ↔ ∃ chunk ∈ src.blocks ++ [src.last], b ∈ chunk := by
      intro b
      simp only [Source.bytes, List.mem_append, List.mem_flatten, List.mem_singleton]
      constructor
      · rintro (⟨l, hl, hb⟩ | hb)
        · exact ⟨l, Or.inl hl, hb⟩
        · exact ⟨src.last, Or.inr rfl, hb⟩
      · rintro ⟨chunk, hl | hl, hb⟩
        · exact Or.inl ⟨chunk, hl, hb⟩
        · exact Or.inr (by rw [← hl]; exact hb)
    constructor
    · intro h b hb
      obtain ⟨chunk, hchunk, hbc⟩ := (hmem b).mp hb
      exact (widths_one_iff_ascii chunk (hdec chunk hchunk)).mp (h chunk hchunk) b hbc
    · intro h chunk hchunk
      exact (widths_one_iff_ascii chunk (hdec chunk hchunk)).mpr
        (fun b hb => h b ((hmem b).mpr ⟨chunk, hchunk, hb⟩))

/-- C8, witness: the malformed input FF (one step of width one), the text "é"
(two bytes, one character) and the ASCII stream "a b" read as "a" and " b",
on which `generalBufferCounter` returns Bytes 3, Chars 3. -/
theorem bytes_eq_chars_iff_single_byte_witness :
    generalBufferCounter ⟨[[0x61]], [0x20, 0x62], ReadError.EOF⟩
      = some (some ⟨0, 2, 3, 3⟩, none) ∧
    (∃ c₁, generalRuneCounter [0xFF] ReadError.EOF = some (some c₁, none) ∧
      (c₁.Bytes = c₁.Chars ↔ ∀ d ∈ decode [0xFF], d.2 = 1)) ∧
    (∃ c₂, generalRuneCounter (encodeText [0xE9]) ReadError.EOF = some (some c₂, none) ∧
      (c₂.Bytes = c₂.Chars ↔ ∀ b ∈ encodeText [0xE9], b.val < 0x80)) ∧
    ((⟨0, 2, 3, 3⟩ : Counters).Bytes = (⟨0, 2, 3, 3⟩ : Counters).Chars ↔
      ∀ chunk ∈ [[(0x61 : Byte)]] ++ [[0x20, 0x62]], ∀ d ∈ decode chunk, d.2 = 1) ∧
    ((⟨0, 2, 3, 3⟩ : Counters).Bytes = (⟨0, 2, 3, 3⟩ : Counters).Chars ↔
      ∀ b ∈ Source.bytes ⟨[[0x61]], [0x20, 0x62], ReadError.EOF⟩, b.val < 0x80) :=
  ⟨by decide,
    bytes_eq_chars_iff_single_byte [0xFF] [0xE9] (by decide)
      ⟨[[0x61]], [0x20, 0x62], ReadError.EOF⟩ ⟨0, 2, 3, 3⟩ (by decide)⟩

/-- C9: for every well-formed UTF-8 text, `generalRuneCounter` returns, and
its `Lines` is the number of U+000A characters of the text; no other
character adds to `Lines`. -/
theorem lines_counts_newlines (rs : List Nat) (hrs : ∀ r ∈ rs, ValidRune r = true) :
    ∃ c, generalRuneCounter (encodeText rs) ReadError.EOF = some (some c, none) ∧
      c.Lines = rs.count 0x0A := by
  refine ⟨countText rs, ?_, rfl⟩
  rw [generalRuneCounter_text rs hrs]
  rfl

/-- C9, witness: "hello\nworld\n" gives Lines 2 and Words 2; the text
"\r", U+0085, U+2028 gives Lines 0. -/
theorem lines_counts_newlines_witness :
    generalRuneCounter
        [0x68, 0x65, 0x6C, 0x6C, 0x6F, 0x0A, 0x77, 0x6F, 0x72, 0x6C, 0x64, 0x0A] ReadError.EOF
      = some (some ⟨2, 2, 12, 12⟩, none) ∧
    generalRuneCounter (encodeText [0x0D, 0x85, 0x2028]) ReadError.EOF
      = some (some ⟨0, 0, 6, 3⟩, none) ∧
    ∃ c, generalRuneCounter
          (encodeText [0x68, 0x65, 0x6C, 0x6C, 0x6F, 0x0A, 0x77, 0x6F, 0x72, 0x6C, 0x64, 0x0A])
          ReadError.EOF = some (some c, none) ∧
      c.Lines = [0x68, 0x65, 0x6C, 0x6C, 0x6F, 0x0A, 0x77, 0x6F, 0x72, 0x6C, 0x64, 0x0A].count 0x0A :=
  ⟨by decide, by decide,
    lines_counts_newlines
      [0x68, 0x65, 0x6C, 0x6C, 0x6F, 0x0A, 0x77, 0x6F, 0x72, 0x6C, 0x64, 0x0A] (by decide)⟩

/-- C10: on every byte stream that ends without a read failure,
`generalRuneCounter` returns counters whose `Bytes` is the number of bytes of
the stream; whenever `generalBufferCounter` returns without error, the stream
has ended and its `Bytes` is the number of bytes of the stream. -/
theorem bytes_counts_every_byte (input : List Byte) (src : Source) (c : Counters)
    (hsucc : generalBufferCounter src = some (some c, none)) :
    (∃ c₁, generalRuneCounter input ReadError.EOF = some (some c₁, none) ∧
      c₁.Bytes = input.length) ∧
    c.Bytes = src.bytes.length ∧ src.stop = ReadError.EOF := by
  obtain ⟨h1, _, h3⟩ := generalBufferCounter_success src c hsucc
  refine ⟨⟨_, generalRuneCounter_decode input, rfl⟩, ?_, h1⟩
  rw [h3]

/-- C10, witness: the six bytes of "a é b" read as "a ", "é" and " b": both
counters report Bytes 6. -/
theorem bytes_counts_every_byte_witness :
    generalBufferCounter ⟨[[0x61, 0x20], [0xC3, 0xA9]], [0x20, 0x62], ReadError.EOF⟩
      = some (some ⟨0, 3, 6, 5⟩, none) ∧
    generalRuneCounter [0x61, 0x20, 0xC3, 0xA9, 0x20, 0x62] ReadError.EOF
      = some (some ⟨0, 3, 6, 5⟩, none) ∧
    (∃ c₁, generalRuneCounter [0x61, 0x20, 0xC3, 0xA9, 0x20, 0x62] ReadError.EOF
        = some (some c₁, none) ∧
      c₁.Bytes = [(0x61 : Byte), 0x20, 0xC3, 0xA9, 0x20, 0x62].length) ∧
    (⟨0, 3, 6, 5⟩ : Counters).Bytes
      = (Source.bytes ⟨[[0x61, 0x20], [0xC3, 0xA9]], [0x20, 0x62], ReadError.EOF⟩).length ∧
    (⟨[[0x61, 0x20], [0xC3, 0xA9]], [0x20, 0x62], ReadError.EOF⟩ : Source).stop
      = ReadError.EOF :=
  ⟨by decide, by decide,
    bytes_counts_every_byte [0x61, 0x20, 0xC3, 0xA9, 0x20, 0x62]
      ⟨[[0x61, 0x20], [0xC3, 0xA9]], [0x20, 0x62], ReadError.EOF⟩ ⟨0, 3, 6, 5⟩ (by decide)⟩

/-! ## Decoding a stream read by read -/

set_option maxRecDepth 100000 in
theorem first_ge_as_size : ∀ b : Byte, first b ≥ as → first b &&& 7 ≤ 1 := by
  decide

/-- A step other than the error step consumes the bytes its lead byte
announces. -/
theorem good_step_size (a : Byte) (t : List Byte)
    (hgood : ¬ ((DecodeRune (a :: t)).1 = RuneError ∧ (DecodeRune (a :: t)).2 = 1)) :
    first a &&& 7 ≤ (DecodeRune (a :: t)).2 := by
  by_cases hx : first a ≥ as
  · have h1 := first_ge_as_size a hx
    have h2 := (DecodeRune_size (a :: t) (List.cons_ne_nil _ _)).1
    omega
  · have hsz := first_lt_as a (by omega)
    revert hgood
    simp only [DecodeRune, List.length_cons, List.getD_cons_zero, hx, if_false]
    split_ifs <;> simp <;> omega

/-- A slice whose first step is not the error step starts with a full rune. -/
theorem FullRune_of_good (p : List Byte) (hp : p ≠ [])
    (hgood : ¬ ((DecodeRune p).1 = RuneError ∧ (DecodeRune p).2 = 1)) :
    FullRune p = true := by
  obtain ⟨a, t, rfl⟩ := List.exists_cons_of_ne_nil hp
  rw [FullRune_iff]
  left
  have h1 := good_step_size a t hgood
  have h2 := (DecodeRune_size (a :: t) (List.cons_ne_nil _ _)).2.1
  simp only [List.length_cons] at h2
  omega

/-- A step other than the error step does not depend on the bytes after the
slice. -/
theorem DecodeRune_append_good (p q : List Byte) (hp : p ≠ [])
    (hgood : ¬ ((DecodeRune p).1 = RuneError ∧ (DecodeRune p).2 = 1)) :
    DecodeRune (p ++ q) = DecodeRune p :=
  DecodeRune_window p q (Or.inr (FullRune_of_good p hp hgood))

/-- A slice without an undecodable byte decodes the same whatever follows it. -/
theorem decode_append_good (n : Nat) : ∀ (b rest : List Byte), b.length ≤ n →
    (∀ d ∈ decode b, ¬ (d.1 = RuneError ∧ d.2 = 1)) →
    decode (b ++ rest) = decode b ++ decode rest := by
  induction n with
  | zero =>
    intro b rest hb _
    have : b = [] := List.length_eq_zero.mp (by omega)
    simp [this, decode_nil]
  | succ n ih =>
    intro b rest hb hgood
    by_cases hne : b = []
    · simp [hne, decode_nil]
    · have hs := DecodeRune_size b hne
      have hd := decode_cons b hne
      have h0 : ¬ ((DecodeRune b).1 = RuneError ∧ (DecodeRune b).2 = 1) :=
        hgood _ (by rw [hd]; exact List.mem_cons_self _ _)
      have hne' : b ++ rest ≠ [] := by simp [hne]
      rw [decode_cons _ hne', DecodeRune_append_good b rest hne h0, hd,
        List.drop_append_of_le_length hs.2.1,
        ih _ rest (by rw [List.length_drop]; omega)
          (fun d hd' => hgood d (by rw [hd]; exact List.mem_cons_of_mem _ hd'))]
      rfl

/-- The decoding of the first step alone. -/
theorem decode_take_step (p : List Byte) (hp : p ≠ [])
    (hgood : ¬ ((DecodeRune p).1 = RuneError ∧ (DecodeRune p).2 = 1)) :
    decode (p.take (DecodeRune p).2) = [DecodeRune p] := by
  obtain ⟨a, t, rfl⟩ := List.exists_cons_of_ne_nil hp
  have hs := DecodeRune_size (a :: t) hp
  have h1 := good_step_size a t hgood
  obtain ⟨j, hj⟩ : ∃ j, (DecodeRune (a :: t)).2 = j + 1 := ⟨(DecodeRune (a :: t)).2 - 1, by omega⟩
  have hfull : FullRune ((a :: t).take (DecodeRune (a :: t)).2) = true := by
    rw [hj, List.take_succ_cons, FullRune_iff]
    left
    rw [List.length_take]
    simp only [List.length_cons] at hs
    omega
  have hw := DecodeRune_window ((a :: t).take (DecodeRune (a :: t)).2)
    ((a :: t).drop (DecodeRune (a :: t)).2) (Or.inr hfull)
  rw [List.take_append_drop] at hw
  have hne : (a :: t).take (DecodeRune (a :: t)).2 ≠ [] := by
    rw [hj, List.take_succ_cons]
    exact List.cons_ne_nil _ _
  rw [decode_cons _ hne, ← hw]
  have hdrop : ((a :: t).take (DecodeRune (a :: t)).2).drop (DecodeRune (a :: t)).2 = [] := by
    apply List.drop_eq_nil_of_le
    rw [List.length_take]
    omega
  rw [hdrop, decode_nil]

/-- The bytes before the first undecodable byte: a slice whose decoding
starts with steps other than the error step splits into the bytes of those
steps and the rest. -/
theorem decode_split (gs : List (Nat × Nat)) : ∀ (p : List Byte) (tl : List (Nat × Nat)),
    decode p = gs ++ tl → (∀ d ∈ gs, ¬ (d.1 = RuneError ∧ d.2 = 1)) →
    ∃ pre post, p = pre ++ post ∧ decode pre = gs ∧ decode post = tl := by
  induction gs with
  | nil =>
    intro p tl h _
    exact ⟨[], p, rfl, decode_nil, by simpa using h⟩
  | cons g gs ih =>
    intro p tl h hgood
    have hne : p ≠ [] := by
      intro h0
      rw [h0, decode_nil] at h
      simp at h
    rw [decode_cons p hne, List.cons_append] at h
    obtain ⟨hg, htl⟩ := List.cons.inj h
    have hg0 : ¬ ((DecodeRune p).1 = RuneError ∧ (DecodeRune p).2 = 1) := by
      rw [hg]; exact hgood g (List.mem_cons_self _ _)
    obtain ⟨pre, post, e1, e2, e3⟩ := ih _ tl htl
      (fun d hd => hgood d (List.mem_cons_of_mem _ hd))
    refine ⟨p.take (DecodeRune p).2 ++ pre, post, ?_, ?_, e3⟩
    · rw [List.append_assoc, ← e1, List.take_append_drop]
    · have h1 := decode_take_step p hne hg0
      rw [decode_append_good _ _ pre (le_refl _) (by
        intro d hd
        rw [h1] at hd
        rw [List.mem_singleton.mp hd]
        exact hg0), h1, e2, hg]
      rfl

/-! ## The pass of `generalBufferCounter`, outcome by outcome -/

/-- When the in-block loop returns an error, it is the invalid-encoding error,
met after steps that are no error steps. -/
theorem scan_invalid (ds : List (Nat × Nat)) : ∀ (s : Bool × Counters) (e : Error),
    (scan s ds).2.2 = some e →
    e = Error.invalidUTF8 ∧ ∃ gs tl, ds = gs ++ (RuneError, 1) :: tl ∧
      (∀ d ∈ gs, ¬ (d.1 = RuneError ∧ d.2 = 1)) := by
  induction ds with
  | nil => intro s e h; simp [scan] at h
  | cons d ds ih =>
    intro s e h
    rw [scan] at h
    by_cases hbad : d.1 = RuneError ∧ d.2 = 1
    · rw [if_pos hbad] at h
      refine ⟨(Option.some.inj h).symm, [], ds, ?_, by simp⟩
      obtain ⟨d1, d2⟩ := d
      simp only at hbad
      rw [hbad.1, hbad.2]
      rfl
    · rw [if_neg hbad] at h
      obtain ⟨he, gs, tl, e1, e2⟩ := ih _ e h
      refine ⟨he, d :: gs, tl, by rw [e1]; rfl, ?_⟩
      intro x hx
      rcases List.mem_cons.mp hx with h1 | h1
      · rw [h1]; exact hbad
      · exact e2 x h1

/-- One read, outcome by outcome: either every step is tallied, or the loop
stops with the invalid-encoding error after the steps before the first error
step. -/
theorem runChunk_cases (s : Bool × Counters) (chunk : List Byte) :
    ((∀ d ∈ decode chunk, ¬ (d.1 = RuneError ∧ d.2 = 1)) ∧
      runChunk s chunk
        = ((addBytes chunk.length (((decode chunk).map Prod.fst).foldl tally s)).1,
           (addBytes chunk.length (((decode chunk).map Prod.fst).foldl tally s)).2, none)) ∨
    (∃ gs tl, decode chunk = gs ++ (RuneError, 1) :: tl ∧
      (∀ d ∈ gs, ¬ (d.1 = RuneError ∧ d.2 = 1)) ∧
      runChunk s chunk
        = ((addBytes chunk.length ((gs.map Prod.fst).foldl tally s)).1,
           (addBytes chunk.length ((gs.map Prod.fst).foldl tally s)).2,
           some Error.invalidUTF8)) := by
  have hs : runChunk s chunk = scan (addBytes chunk.length s) (decode chunk) := rfl
  cases he : (scan (addBytes chunk.length s) (decode chunk)).2.2 with
  | none =>
    left
    have hgood := scan_none _ _ he
    refine ⟨hgood, ?_⟩
    rw [hs, scan_good _ _ hgood, foldl_tally_addBytes]
  | some e =>
    right
    obtain ⟨_, gs, tl, e1, e2⟩ := scan_invalid _ _ e he
    refine ⟨gs, tl, e1, e2, ?_⟩
    rw [hs, e1, scan_bad gs tl _ e2, foldl_tally_addBytes]

/-- Reads without an undecodable byte decode as the concatenation of their
decodings, whatever follows them. -/
theorem decode_flatten_good (chunks : List (List Byte)) (rest : List Byte)
    (hgood : ∀ chunk ∈ chunks, ∀ d ∈ decode chunk, ¬ (d.1 = RuneError ∧ d.2 = 1)) :
    decode (chunks.flatten ++ rest) = chunks.flatMap decode ++ decode rest := by
  induction chunks with
  | nil => simp
  | cons ch chunks ih =>
    rw [List.flatten_cons, List.append_assoc,
      decode_append_good ch.length ch _ (le_refl _) (hgood ch (List.mem_cons_self _ _)),
      ih (fun x hx => hgood x (List.mem_cons_of_mem _ hx)), List.flatMap_cons,
      List.append_assoc]

/-- A pass that stops with the invalid-encoding error: the read `k` at which
it stops, the steps `gs` of that read before the first error step, and the
counters, which hold the tally of the runes before the error step and the
bytes of every read up to and including read `k`. -/
theorem runBlocks_abort (stop : ReadError) (last : List Byte) :
    ∀ (blocks : List (List Byte)) (s : Bool × Counters) (c : Counters),
    runBlocks stop s blocks last = (some c, some Error.invalidUTF8) →
    ∃ (k : Nat) (gs tl : List (Nat × Nat)), k < (blocks ++ [last]).length ∧
      (∀ chunk ∈ (blocks ++ [last]).take k, ∀ d ∈ decode chunk,
        ¬ (d.1 = RuneError ∧ d.2 = 1)) ∧
      decode ((blocks ++ [last]).getD k []) = gs ++ (RuneError, 1) :: tl ∧
      (∀ d ∈ gs, ¬ (d.1 = RuneError ∧ d.2 = 1)) ∧
      c = (addBytes ((blocks ++ [last]).take (k + 1)).flatten.length
            ((((blocks ++ [last]).take k).flatMap (fun chunk => (decode chunk).map Prod.fst)
              ++ gs.map Prod.fst).foldl tally s)).2 := by
  intro blocks
  induction blocks with
  | nil =>
    intro s c h
    simp only [runBlocks] at h
    rcases runChunk_cases s last with ⟨_, hrc⟩ | ⟨gs, tl, e1, e2, hrc⟩
    · rw [hrc] at h
      cases stop <;> simp [bufferFinish] at h
    · rw [hrc] at h
      simp only [Prod.mk.injEq, Option.some.injEq, and_true] at h
      refine ⟨0, gs, tl, by simp, by simp, by simpa using e1, e2, ?_⟩
      rw [← h]
      simp
  | cons b bs ih =>
    intro s c h
    simp only [runBlocks] at h
    rcases runChunk_cases s b with ⟨hgood, hrc⟩ | ⟨gs, tl, e1, e2, hrc⟩
    · rw [hrc] at h
      simp only [Prod.mk.eta] at h
      obtain ⟨k, gs, tl, h1, h2, h3, h4, h5⟩ := ih _ c h
      refine ⟨k + 1, gs, tl, by simpa using h1, ?_, by simpa using h3, h4, ?_⟩
      · intro chunk hc
        rw [List.cons_append, List.take_succ_cons] at hc
        rcases List.mem_cons.mp hc with e | e
        · rw [e]; exact hgood
        · exact h2 chunk e
      · rw [h5, foldl_tally_addBytes, addBytes_addBytes]
        simp only [List.cons_append, List.take_succ_cons, List.flatMap_cons, List.flatten_cons,
          List.length_append, List.foldl_append, List.append_assoc]
    · rw [hrc] at h
      simp only [Prod.mk.injEq, Option.some.injEq, and_true] at h
      refine ⟨0, gs, tl, by simp, by simp, by simpa using e1, e2, ?_⟩
      rw [← h]
      simp

/-- A pass that does not stop with the invalid-encoding error tallies what the
pass over the same reads of a stream that ends tallies. -/
theorem runBlocks_noabort (stop : ReadError) (last : List Byte) :
    ∀ (blocks : List (List Byte)) (s : Bool × Counters) (c : Counters) (e : Option Error),
    runBlocks stop s blocks last = (some c, e) → e ≠ some Error.invalidUTF8 →
    runBlocks ReadError.EOF s blocks last = (some c, none) := by
  intro blocks
  induction blocks with
  | nil =>
    intro s c e h he
    simp only [runBlocks] at h ⊢
    rcases runChunk_cases s last with ⟨_, hrc⟩ | ⟨gs, tl, _, _, hrc⟩
    · rw [hrc] at h ⊢
      cases stop <;> simp_all [bufferFinish]
    · rw [hrc] at h
      simp only [Prod.mk.injEq, Option.some.injEq] at h
      exact absurd h.2.symm he
  | cons b bs ih =>
    intro s c e h he
    simp only [runBlocks] at h ⊢
    rcases runChunk_cases s b with ⟨_, hrc⟩ | ⟨gs, tl, _, _, hrc⟩
    · rw [hrc] at h ⊢
      exact ih _ c e h he
    · rw [hrc] at h
      simp only [Prod.mk.injEq, Option.some.injEq] at h
      exact absurd h.2.symm he

/-! ## The buffer pass against the rune pass -/

theorem chunks_flatten (src : Source) : src.bytes = (src.blocks ++ [src.last]).flatten := by
  simp [Source.bytes]

theorem split_at_chunk (chunks : List (List Byte)) (k : Nat) (hk : k < chunks.length) :
    chunks.flatten
      = (chunks.take k).flatten ++ chunks.getD k [] ++ (chunks.drop (k + 1)).flatten ∧
    (chunks.take (k + 1)).flatten = (chunks.take k).flatten ++ chunks.getD k [] := by
  have h1 : chunks.getD k [] = chunks[k] := List.getD_eq_getElem _ _ hk
  have h2 : chunks = chunks.take k ++ chunks[k] :: chunks.drop (k + 1) := by
    conv_lhs => rw [← List.take_append_drop k chunks, List.drop_eq_getElem_cons hk]
  have h3 : chunks.take (k + 1) = chunks.take k ++ [chunks[k]] := by
    rw [List.take_succ, List.getElem?_eq_getElem hk]
    rfl
  have e2 := congrArg List.flatten h2
  have e3 := congrArg List.flatten h3
  simp only [List.flatten_append, List.flatten_cons, List.flatten_nil, List.append_nil] at e2 e3
  rw [h1, List.append_assoc]
  exact ⟨e2, e3⟩

theorem map_fst_flatMap_decode (chunks : List (List Byte)) :
    (chunks.flatMap decode).map Prod.fst
      = chunks.flatMap (fun chunk => (decode chunk).map Prod.fst) :=
  List.map_flatMap Prod.fst decode chunks

/-- Whenever `generalBufferCounter` returns without error, `generalRuneCounter`
returns the same counters on the same bytes. -/
theorem generalBufferCounter_agrees (src : Source) (c : Counters)
    (h : generalBufferCounter src = some (some c, none)) :
    generalRuneCounter src.bytes ReadError.EOF = some (some c, none) := by
  obtain ⟨_, hgood, hc⟩ := generalBufferCounter_success src c h
  have hd : decode src.bytes = (src.blocks ++ [src.last]).flatMap decode := by
    have := decode_flatten_good (src.blocks ++ [src.last]) [] hgood
    rw [chunks_flatten]
    simpa [decode_nil] using this
  rw [generalRuneCounter_decode, hd, map_fst_flatMap_decode, hc]
  congr 4
  rw [← map_fst_flatMap_decode, List.length_map]

/-- A pass of `generalBufferCounter` that stops with the invalid-encoding
error, read off the stream: the read `k` at which it stops splits into the
bytes `good` before the undecodable byte and the bytes `bad` from it on;
`Lines`, `Words` and `Chars` are what `generalRuneCounter` counts on the bytes
before the undecodable byte, and `Bytes` is the length of every read up to and
including read `k`. -/
theorem generalBufferCounter_abort (src : Source) (c : Counters)
    (h : generalBufferCounter src = some (some c, some Error.invalidUTF8)) :
    ∃ (k : Nat) (good bad : List Byte), k < (src.blocks ++ [src.last]).length ∧
      (src.blocks ++ [src.last]).getD k [] = good ++ bad ∧
      bad ≠ [] ∧ DecodeRune bad = (RuneError, 1) ∧
      (∀ d ∈ decode (((src.blocks ++ [src.last]).take k).flatten ++ good),
        ¬ (d.1 = RuneError ∧ d.2 = 1)) ∧
      generalRuneCounter (((src.blocks ++ [src.last]).take k).flatten ++ good) ReadError.EOF
        = some (some ⟨c.Lines, c.Words,
            (((src.blocks ++ [src.last]).take k).flatten ++ good).length, c.Chars⟩, none) ∧
      c.Bytes = (((src.blocks ++ [src.last]).take k).flatten ++ good).length + bad.length ∧
      c.Bytes = ((src.blocks ++ [src.last]).take (k + 1)).flatten.length := by
  rw [generalBufferCounter_eq] at h
  obtain ⟨k, gs, tl, hk, hprev, hdec, hgs, hc⟩ :=
    runBlocks_abort src.stop src.last src.blocks _ c (Option.some.inj h)
  obtain ⟨good, bad, e1, e2, e3⟩ := decode_split gs _ _ hdec hgs
  have hbad : bad ≠ [] := by
    intro h0
    rw [h0, decode_nil] at e3
    simp at e3
  have hbad1 : DecodeRune bad = (RuneError, 1) := by
    rw [decode_cons bad hbad] at e3
    exact (List.cons.inj e3).1
  have hdp : decode (((src.blocks ++ [src.last]).take k).flatten ++ good)
      = ((src.blocks ++ [src.last]).take k).flatMap decode ++ gs := by
    rw [decode_flatten_good _ good hprev, e2]
  have hsplit := (split_at_chunk (src.blocks ++ [src.last]) k hk).2
  have hgoodall : ∀ d ∈ decode (((src.blocks ++ [src.last]).take k).flatten ++ good),
      ¬ (d.1 = RuneError ∧ d.2 = 1) := by
    intro d hd
    rw [hdp] at hd
    rcases List.mem_append.mp hd with h1 | h1
    · obtain ⟨chunk, hchunk, hd'⟩ := List.mem_flatMap.mp h1
      exact hprev chunk hchunk d hd'
    · exact hgs d h1
  have hlen : ((src.blocks ++ [src.last]).take (k + 1)).flatten.length
      = (((src.blocks ++ [src.last]).take k).flatten ++ good).length + bad.length := by
    rw [hsplit, e1]
    simp only [List.length_append]
    omega
  rw [foldl_tally] at hc
  have hruns : (decode (((src.blocks ++ [src.last]).take k).flatten ++ good)).map Prod.fst
      = ((src.blocks ++ [src.last]).take k).flatMap (fun chunk => (decode chunk).map Prod.fst)
          ++ gs.map Prod.fst := by
    rw [hdp, List.map_append, map_fst_flatMap_decode]
  refine ⟨k, good, bad, hk, e1, hbad, hbad1, hgoodall, ?_, ?_, ?_⟩
  · rw [generalRuneCounter_decode, hruns, hc]
    simp only [addBytes, wordStarts, Bool.not_false, Nat.zero_add]
    congr 4
    rw [← hruns, List.length_map]
  · rw [← hlen, hc]
    simp [addBytes]
  · rw [hc]
    simp [addBytes]

/-- Whatever `generalBufferCounter` returns, its `Lines`, `Words` and `Chars`
are the counts of the runes of a prefix of the stream that has no undecodable
byte; the prefix is the whole stream unless the pass stops with the
invalid-encoding error. -/
theorem generalBufferCounter_prefix (src : Source) :
    ∃ (c : Counters) (e : Option Error) (pre rest : List Byte),
      generalBufferCounter src = some (some c, e) ∧ src.bytes = pre ++ rest ∧
      (∀ d ∈ decode pre, ¬ (d.1 = RuneError ∧ d.2 = 1)) ∧
      c.Lines = newlines ((decode pre).map Prod.fst) ∧
      c.Words = wordStarts ((decode pre).map Prod.fst) ∧
      c.Chars = (decode pre).length ∧
      (e ≠ some Error.invalidUTF8 → rest = []) := by
  obtain ⟨c, e, hres, _⟩ := runBlocks_chars_le src.stop src.last src.blocks
    (false, ⟨0, 0, 0, 0⟩) (le_refl _)
  have hgb : generalBufferCounter src = some (some c, e) := by
    rw [generalBufferCounter_eq, hres]
  by_cases he : e = some Error.invalidUTF8
  · subst he
    obtain ⟨k, good, bad, hk, e1, _, _, hgood, hrune, _, _⟩ :=
      generalBufferCounter_abort src c hgb
    have hsplit := (split_at_chunk (src.blocks ++ [src.last]) k hk).1
    have hr := generalRuneCounter_decode (((src.blocks ++ [src.last]).take k).flatten ++ good)
    rw [hrune] at hr
    simp only [Option.some.injEq, Prod.mk.injEq, and_true, Counters.mk.injEq, true_and] at hr
    refine ⟨c, _, ((src.blocks ++ [src.last]).take k).flatten ++ good,
      bad ++ ((src.blocks ++ [src.last]).drop (k + 1)).flatten, hgb, ?_, hgood, hr.1, hr.2.1,
      hr.2.2, fun h => absurd rfl h⟩
    rw [chunks_flatten, hsplit, e1]
    simp only [List.append_assoc]
  · have h0 := runBlocks_noabort src.stop src.last src.blocks _ c e hres he
    have hsucc : generalBufferCounter ⟨src.blocks, src.last, ReadError.EOF⟩
        = some (some c, none) := by
      rw [generalBufferCounter_eq, h0]
    have hr := generalBufferCounter_agrees _ c hsucc
    obtain ⟨_, hgood, _⟩ := generalBufferCounter_success _ c hsucc
    have hb : Source.bytes ⟨src.blocks, src.last, ReadError.EOF⟩ = src.bytes := rfl
    rw [hb, generalRuneCounter_decode] at hr
    simp only [Option.some.injEq, Prod.mk.injEq, and_true] at hr
    have hd : decode src.bytes = (src.blocks ++ [src.last]).flatMap decode := by
      have := decode_flatten_good (src.blocks ++ [src.last]) [] hgood
      rw [chunks_flatten]
      simpa [decode_nil] using this
    refine ⟨c, e, src.bytes, [], hgb, by simp, ?_, by rw [← hr], by rw [← hr], by rw [← hr],
      fun _ => rfl⟩
    intro d hd'
    rw [hd] at hd'
    obtain ⟨chunk, hchunk, hd''⟩ := List.mem_flatMap.mp hd'
    exact hgood chunk hchunk d hd''

/-- A text of white-space characters has no word start. -/
theorem wordStartsFrom_all_space (rs : List Nat) (h : ∀ r ∈ rs, IsSpace r = true) :
    ∀ prev : Bool, wordStartsFrom prev rs = 0 := by
  induction rs with
  | nil => intro prev; exact wordStartsFrom_nil prev
  | cons r rs ih =>
    intro prev
    have hr := h r (List.mem_cons_self _ _)
    rw [wordStartsFrom_cons, ih (fun x hx => h x (List.mem_cons_of_mem _ hx))]
    simp [hr]

/-- A text with a character that is not white space has a word start. -/
theorem wordStarts_pos (rs : List Nat) (h : ∃ r ∈ rs, IsSpace r = false) :
    1 ≤ wordStarts rs := by
  unfold wordStarts
  induction rs with
  | nil =>
    obtain ⟨r, hr, _⟩ := h
    simp at hr
  | cons r rs ih =>
    rw [wordStartsFrom_cons]
    by_cases hsp : IsSpace r = false
    · simp [hsp]
    · have hsp' : IsSpace r = true := by simpa using hsp
      obtain ⟨x, hx, hx'⟩ := h
      rcases List.mem_cons.mp hx with e | e
      · rw [e] at hx'
        rw [hx'] at hsp'
        exact absurd hsp' (by simp)
      · have := ih ⟨x, e, hx'⟩
        rw [hsp']
        omega

/-- Reads that each decode without an undecodable byte: every read is tallied
and the pass ends as the last read says. -/
theorem runBlocks_good (stop : ReadError) (last : List Byte) :
    ∀ (blocks : List (List Byte)) (s : Bool × Counters),
    (∀ chunk ∈ blocks ++ [last], ∀ d ∈ decode chunk, ¬ (d.1 = RuneError ∧ d.2 = 1)) →
    runBlocks stop s blocks last
      = bufferFinish stop (addBytes (blocks.flatten ++ last).length
          (((blocks ++ [last]).flatMap (fun chunk => (decode chunk).map Prod.fst)).foldl
            tally s)) := by
  intro blocks
  induction blocks with
  | nil =>
    intro s hgood
    have hl := hgood last (by simp)
    simp only [runBlocks]
    rcases runChunk_cases s last with ⟨_, hrc⟩ | ⟨gs, tl, e1, _, _⟩
    · rw [hrc]
      simp
    · exact absurd ⟨rfl, rfl⟩ (hl (RuneError, 1) (by rw [e1]; simp))
  | cons b bs ih =>
    intro s hgood
    have hb := hgood b (by simp)
    simp only [runBlocks]
    rcases runChunk_cases s b with ⟨_, hrc⟩ | ⟨gs, tl, e1, _, _⟩
    · rw [hrc]
      simp only [Prod.mk.eta]
      rw [ih _ (fun chunk hc => hgood chunk (by
        rw [List.cons_append]; exact List.mem_cons_of_mem _ hc)),
        foldl_tally_addBytes, addBytes_addBytes]
      simp only [List.cons_append, List.flatMap_cons, List.foldl_append, List.flatten_cons,
        List.length_append, List.append_assoc]
    · exact absurd ⟨rfl, rfl⟩ (hb (RuneError, 1) (by rw [e1]; simp))

/-- The function `generalBufferCounter` on reads that each decode without an
undecodable byte, when the last read reports an error other than `io.EOF`: it
returns that error, with the counters `generalRuneCounter` returns on the
same bytes of a stream that ends. -/
theorem generalBufferCounter_read_error (src : Source) (id : Nat)
    (hstop : src.stop = ReadError.other id)
    (hgood : ∀ chunk ∈ src.blocks ++ [src.last], ∀ d ∈ decode chunk,
      ¬ (d.1 = RuneError ∧ d.2 = 1)) :
    ∃ c, generalBufferCounter src = some (some c, some (Error.read (ReadError.other id))) ∧
      generalRuneCounter src.bytes ReadError.EOF = some (some c, none) := by
  have h1 := runBlocks_good ReadError.EOF src.last src.blocks (false, ⟨0, 0, 0, 0⟩) hgood
  have h2 := runBlocks_good src.stop src.last src.blocks (false, ⟨0, 0, 0, 0⟩) hgood
  have hsucc : generalBufferCounter ⟨src.blocks, src.last, ReadError.EOF⟩
      = some (bufferFinish ReadError.EOF (addBytes (src.blocks.flatten ++ src.last).length
          (((src.blocks ++ [src.last]).flatMap (fun chunk => (decode chunk).map Prod.fst)).foldl
            tally (false, ⟨0, 0, 0, 0⟩)))) := by
    rw [generalBufferCounter_eq, h1]
  refine ⟨_, ?_, generalBufferCounter_agrees ⟨src.blocks, src.last, ReadError.EOF⟩ _ hsucc⟩
  rw [generalBufferCounter_eq, h2, hstop]
  rfl

/-! ## The failure point of the buffer pass -/

/-- One read that holds an undecodable byte after the bytes `good`: the loop
stops there with the invalid-encoding error, having tallied `good` and added
the whole read to `Bytes`. -/
theorem runChunk_failure (s : Bool × Counters) (good bad : List Byte) (hbad : bad ≠ [])
    (hbad1 : DecodeRune bad = (RuneError, 1))
    (hgood : ∀ d ∈ decode good, ¬ (d.1 = RuneError ∧ d.2 = 1)) :
    runChunk s (good ++ bad)
      = ((addBytes (good ++ bad).length (((decode good).map Prod.fst).foldl tally s)).1,
         (addBytes (good ++ bad).length (((decode good).map Prod.fst).foldl tally s)).2,
         some Error.invalidUTF8) := by
  have hs : runChunk s (good ++ bad)
      = scan (addBytes (good ++ bad).length s) (decode (good ++ bad)) := rfl
  rw [hs, decode_append_good good.length good bad (le_refl _) hgood, decode_cons bad hbad,
    hbad1, scan_bad _ _ _ hgood, foldl_tally_addBytes]

/-- The pass over reads with a failure point: it stops there with the
invalid-encoding error, with the tally of the runes before the failure point
and the bytes of every read up to and including the one that holds it. -/
theorem runBlocks_failure (stop : ReadError) (last : List Byte) (good bad : List Byte)
    (hbad : bad ≠ []) (hbad1 : DecodeRune bad = (RuneError, 1))
    (hgood : ∀ d ∈ decode good, ¬ (d.1 = RuneError ∧ d.2 = 1)) :
    ∀ (blocks : List (List Byte)) (s : Bool × Counters) (k : Nat),
    k < (blocks ++ [last]).length → (blocks ++ [last]).getD k [] = good ++ bad →
    (∀ chunk ∈ (blocks ++ [last]).take k, ∀ d ∈ decode chunk,
      ¬ (d.1 = RuneError ∧ d.2 = 1)) →
    runBlocks stop s blocks last
      = (some (addBytes ((blocks ++ [last]).take (k + 1)).flatten.length
            ((((blocks ++ [last]).take k).flatMap (fun chunk => (decode chunk).map Prod.fst)
              ++ (decode good).map Prod.fst).foldl tally s)).2,
         some Error.invalidUTF8) := by
  intro blocks
  induction blocks with
  | nil =>
    intro s k hk hchunk _
    have hk0 : k = 0 := by simpa using hk
    subst hk0
    have hl : last = good ++ bad := by simpa using hchunk
    simp only [runBlocks]
    rw [hl, runChunk_failure s good bad hbad hbad1 hgood]
    simp
  | cons b bs ih =>
    intro s k hk hchunk hprev
    cases k with
    | zero =>
      have hl : b = good ++ bad := by simpa using hchunk
      simp only [runBlocks]
      rw [hl, runChunk_failure s good bad hbad hbad1 hgood]
      simp
    | succ k =>
      have hb : ∀ d ∈ decode b, ¬ (d.1 = RuneError ∧ d.2 = 1) :=
        hprev b (by rw [List.cons_append, List.take_succ_cons]; exact List.mem_cons_self _ _)
      simp only [runBlocks]
      rcases runChunk_cases s b with ⟨_, hrc⟩ | ⟨gs, tl, e1, _, _⟩
      · rw [hrc]
        simp only [Prod.mk.eta]
        rw [ih _ k (by simpa using hk) (by simpa using hchunk) (fun chunk hc => hprev chunk (by
          rw [List.cons_append, List.take_succ_cons]; exact List.mem_cons_of_mem _ hc)),
          foldl_tally_addBytes, addBytes_addBytes]
        simp only [List.cons_append, List.take_succ_cons, List.flatMap_cons, List.flatten_cons,
          List.length_append, List.foldl_append, List.append_assoc]
      · exact absurd ⟨rfl, rfl⟩ (hb (RuneError, 1) (by rw [e1]; simp))

/-- A pass of `generalBufferCounter` that stops with the invalid-encoding
error has a failure point. -/
theorem failsAt_of_abort (src : Source) (c : Counters)
    (h : generalBufferCounter src = some (some c, some Error.invalidUTF8)) :
    ∃ (k : Nat) (good bad : List Byte), src.failsAt k good bad := by
  rw [generalBufferCounter_eq] at h
  obtain ⟨k, gs, tl, hk, hprev, hdec, hgs, _⟩ :=
    runBlocks_abort src.stop src.last src.blocks _ c (Option.some.inj h)
  obtain ⟨good, bad, e1, e2, e3⟩ := decode_split gs _ _ hdec hgs
  have hbad : bad ≠ [] := by
    intro h0
    rw [h0, decode_nil] at e3
    simp at e3
  have hbad1 : DecodeRune bad = (RuneError, 1) := by
    rw [decode_cons bad hbad] at e3
    exact (List.cons.inj e3).1
  exact ⟨k, good, bad, hk, e1, hbad, hbad1, hprev, by rw [e2]; exact hgs⟩

/-- What `generalBufferCounter` returns on a source with a failure point: the
invalid-encoding error; `Lines`, `Words` and `Chars` as `generalRuneCounter`
counts them on the bytes before the failure point, which hold no undecodable
byte; `Bytes` the length of every read up to and including the one that holds
the failure point. -/
theorem generalBufferCounter_failsAt (src : Source) (k : Nat) (good bad : List Byte)
    (hf : src.failsAt k good bad) :
    ∃ c, generalBufferCounter src = some (some c, some Error.invalidUTF8) ∧
      (∀ d ∈ decode (((src.blocks ++ [src.last]).take k).flatten ++ good),
        ¬ (d.1 = RuneError ∧ d.2 = 1)) ∧
      generalRuneCounter (((src.blocks ++ [src.last]).take k).flatten ++ good) ReadError.EOF
        = some (some ⟨c.Lines, c.Words,
            (((src.blocks ++ [src.last]).take k).flatten ++ good).length, c.Chars⟩, none) ∧
      c.Bytes = (((src.blocks ++ [src.last]).take k).flatten ++ good).length + bad.length ∧
      c.Bytes = ((src.blocks ++ [src.last]).take (k + 1)).flatten.length := by
  obtain ⟨hk, hchunk, hbad, hbad1, hprev, hgood⟩ := hf
  have hrun := runBlocks_failure src.stop src.last good bad hbad hbad1 hgood src.blocks
    (false, ⟨0, 0, 0, 0⟩) k hk hchunk hprev
  have hdp : decode (((src.blocks ++ [src.last]).take k).flatten ++ good)
      = ((src.blocks ++ [src.last]).take k).flatMap decode ++ decode good :=
    decode_flatten_good _ good hprev
  have hsplit := (split_at_chunk (src.blocks ++ [src.last]) k hk).2
  have hlen : ((src.blocks ++ [src.last]).take (k + 1)).flatten.length
      = (((src.blocks ++ [src.last]).take k).flatten ++ good).length + bad.length := by
    rw [hsplit, hchunk]
    simp only [List.length_append]
    omega
  have hruns : (decode (((src.blocks ++ [src.last]).take k).flatten ++ good)).map Prod.fst
      = ((src.blocks ++ [src.last]).take k).flatMap (fun chunk => (decode chunk).map Prod.fst)
          ++ (decode good).map Prod.fst := by
    rw [hdp, List.map_append, map_fst_flatMap_decode]
  rw [foldl_tally] at hrun
  refine ⟨_, by rw [generalBufferCounter_eq, hrun], ?_, ?_, ?_, ?_⟩
  · intro d hd
    rw [hdp] at hd
    rcases List.mem_append.mp hd with h1 | h1
    · obtain ⟨chunk, hchunk', hd'⟩ := List.mem_flatMap.mp h1
      exact hprev chunk hchunk' d hd'
    · exact hgood d h1
  · rw [generalRuneCounter_decode, hruns]
    simp only [addBytes, wordStarts, Bool.not_false, Nat.zero_add]
    congr 4
    rw [← hruns, List.length_map]
  · rw [← hlen]
    simp [addBytes]
  · simp [addBytes]

/-! ## The claims, continued -/

/-- C11: for every well-formed UTF-8 text, `generalRuneCounter` returns, and
its `Chars` is the number of code points of the text, the length of the
decoded text, not the number of bytes. -/
theorem chars_counts_code_points (rs : List Nat) (hrs : ∀ r ∈ rs, ValidRune r = true) :
    ∃ c, generalRuneCounter (encodeText rs) ReadError.EOF = some (some c, none) ∧
      c.Chars = rs.length ∧ (decode (encodeText rs)).map Prod.fst = rs := by
  refine ⟨countText rs, ?_, rfl, ?_⟩
  · rw [generalRuneCounter_text rs hrs]
    rfl
  · rw [decode_text rs hrs]
    simp [Function.comp_def]

/-- C11, witness: the text "aé世" has 6 bytes and 3 code points. -/
theorem chars_counts_code_points_witness :
    generalRuneCounter [0x61, 0xC3, 0xA9, 0xE4, 0xB8, 0x96] ReadError.EOF
      = some (some ⟨0, 1, 6, 3⟩, none) ∧
    encodeText [0x61, 0xE9, 0x4E16] = [0x61, 0xC3, 0xA9, 0xE4, 0xB8, 0x96] ∧
    ∃ c, generalRuneCounter (encodeText [0x61, 0xE9, 0x4E16]) ReadError.EOF
        = some (some c, none) ∧
      c.Chars = [0x61, 0xE9, 0x4E16].length ∧
      (decode (encodeText [0x61, 0xE9, 0x4E16])).map Prod.fst = [0x61, 0xE9, 0x4E16] :=
  ⟨by decide, by decide, chars_counts_code_points [0x61, 0xE9, 0x4E16] (by decide)⟩

/-- C12, counterexample: the stream 61 FF 62 delivered by one read. The pass
stops at the undecodable byte FF with the invalid-encoding error; the prefix
before FF is the one byte 61, yet the counters returned have Bytes 3, the
whole read. -/
theorem abort_counts_whole_read :
    Source.fits ⟨[[0x61, 0xFF, 0x62]], [], ReadError.EOF⟩ ∧
    generalBufferCounter ⟨[[0x61, 0xFF, 0x62]], [], ReadError.EOF⟩
      = some (some ⟨0, 1, 3, 1⟩, some Error.invalidUTF8) ∧
    DecodeRune [0x61, 0xFF, 0x62] = (0x61, 1) ∧ DecodeRune [0xFF, 0x62] = (RuneError, 1) ∧
    generalRuneCounter [0x61] ReadError.EOF = some (some ⟨0, 1, 1, 1⟩, none) ∧
    ¬ ∃ c : Counters, generalBufferCounter ⟨[[0x61, 0xFF, 0x62]], [], ReadError.EOF⟩
        = some (some c, some Error.invalidUTF8) ∧ c.Bytes = [(0x61 : Byte)].length := by
  refine ⟨by decide, by decide, by decide, by decide, by decide, ?_⟩
  rintro ⟨c, h, hb⟩
  have e : generalBufferCounter ⟨[[0x61, 0xFF, 0x62]], [], ReadError.EOF⟩
      = some (some ⟨0, 1, 3, 1⟩, some Error.invalidUTF8) := by decide
  rw [e] at h
  simp only [Option.some.injEq, Prod.mk.injEq, and_true] at h
  rw [← h] at hb
  exact absurd hb (by decide)

/-- C12, as amended: whenever `generalBufferCounter` aborts with the
invalid-encoding error, the stream has a failure point: a first read `k` that
does not decode within its block, its bytes `good` before the first
undecodable byte and its bytes `bad` from that byte on. At every failure
point, the input prefix that precedes the undecodable byte holds no
undecodable byte, `Lines`, `Words` and `Chars` are the counts of that prefix
(what `generalRuneCounter` counts on it) and nothing beyond it, and `Bytes` is
the length of that prefix plus the rest of read `k`: every read up to and
including the one that holds the undecodable byte. -/
theorem abort_counts_prefix_and_whole_read (src : Source) (c : Counters)
    (h : generalBufferCounter src = some (some c, some Error.invalidUTF8)) :
    (∃ (k : Nat) (good bad : List Byte), src.failsAt k good bad) ∧
    ∀ (k : Nat) (good bad : List Byte), src.failsAt k good bad →
      (∀ d ∈ decode (((src.blocks ++ [src.last]).take k).flatten ++ good),
        ¬ (d.1 = RuneError ∧ d.2 = 1)) ∧
      generalRuneCounter (((src.blocks ++ [src.last]).take k).flatten ++ good) ReadError.EOF
        = some (some ⟨c.Lines, c.Words,
            (((src.blocks ++ [src.last]).take k).flatten ++ good).length, c.Chars⟩, none) ∧
      c.Bytes = (((src.blocks ++ [src.last]).take k).flatten ++ good).length + bad.length ∧
      c.Bytes = ((src.blocks ++ [src.last]).take (k + 1)).flatten.length := by
  refine ⟨failsAt_of_abort src c h, ?_⟩
  intro k good bad hf
  obtain ⟨c', h1, h2, h3, h4, h5⟩ := generalBufferCounter_failsAt src k good bad hf
  rw [h] at h1
  simp only [Option.some.injEq, Prod.mk.injEq, and_true] at h1
  subst h1
  exact ⟨h2, h3, h4, h5⟩

/-- C12, witness: the reads "a " and 62 FF 63. The pass stops in the second
read, at FF, with Lines 0, Words 2, Chars 3 (the prefix "a b") and Bytes 5.
On the single read E4 B8 96 FF the failure point is FF, not a byte inside the
character before it, and the pass returns Chars 1. -/
theorem abort_counts_prefix_and_whole_read_witness :
    generalBufferCounter ⟨[[0x61, 0x20], [0x62, 0xFF, 0x63]], [], ReadError.EOF⟩
      = some (some ⟨0, 2, 5, 3⟩, some Error.invalidUTF8) ∧
    Source.failsAt ⟨[[0x61, 0x20], [0x62, 0xFF, 0x63]], [], ReadError.EOF⟩ 1 [0x62]
      [0xFF, 0x63] ∧
    generalRuneCounter [0x61, 0x20, 0x62] ReadError.EOF = some (some ⟨0, 2, 3, 3⟩, none) ∧
    generalBufferCounter ⟨[[0xE4, 0xB8, 0x96, 0xFF]], [], ReadError.EOF⟩
      = some (some ⟨0, 1, 4, 1⟩, some Error.invalidUTF8) ∧
    Source.failsAt ⟨[[0xE4, 0xB8, 0x96, 0xFF]], [], ReadError.EOF⟩ 0 [0xE4, 0xB8, 0x96] [0xFF] ∧
    ¬ Source.failsAt ⟨[[0xE4, 0xB8, 0x96, 0xFF]], [], ReadError.EOF⟩ 0 [0xE4, 0xB8]
      [0x96, 0xFF] ∧
    ((∃ (k : Nat) (good bad : List Byte),
        Source.failsAt ⟨[[0x61, 0x20], [0x62, 0xFF, 0x63]], [], ReadError.EOF⟩ k good bad) ∧
      ∀ (k : Nat) (good bad : List Byte),
        Source.failsAt ⟨[[0x61, 0x20], [0x62, 0xFF, 0x63]], [], ReadError.EOF⟩ k good bad →
        (∀ d ∈ decode ((([[(0x61 : Byte), 0x20], [0x62, 0xFF, 0x63]] ++ [[]]).take k).flatten
            ++ good), ¬ (d.1 = RuneError ∧ d.2 = 1)) ∧
        generalRuneCounter
            ((([[(0x61 : Byte), 0x20], [0x62, 0xFF, 0x63]] ++ [[]]).take k).flatten ++ good)
            ReadError.EOF
          = some (some ⟨(⟨0, 2, 5, 3⟩ : Counters).Lines, (⟨0, 2, 5, 3⟩ : Counters).Words,
              ((([[(0x61 : Byte), 0x20], [0x62, 0xFF, 0x63]] ++ [[]]).take k).flatten
                ++ good).length, (⟨0, 2, 5, 3⟩ : Counters).Chars⟩, none) ∧
        (⟨0, 2, 5, 3⟩ : Counters).Bytes
          = ((([[(0x61 : Byte), 0x20], [0x62, 0xFF, 0x63]] ++ [[]]).take k).flatten
              ++ good).length + bad.length ∧
        (⟨0, 2, 5, 3⟩ : Counters).Bytes
          = (([[(0x61 : Byte), 0x20], [0x62, 0xFF, 0x63]] ++ [[]]).take (k + 1)).flatten.length) :=
  ⟨by decide, by decide, by decide, by decide, by decide, by decide,
    abort_counts_prefix_and_whole_read
      ⟨[[0x61, 0x20], [0x62, 0xFF, 0x63]], [], ReadError.EOF⟩ ⟨0, 2, 5, 3⟩ (by decide)⟩

/-- C13: when reading the stream fails with an error other than `io.EOF`,
`generalRuneCounter` returns exactly that error and no `Counters`; when the
stream ends it returns a `Counters` and no error; so it returns a `Counters`
if and only if it returns no error. -/
theorem rune_counter_counters_iff_no_error (input : List Byte) (id : Nat) :
    generalRuneCounter input (ReadError.other id)
      = some (none, some (Error.read (ReadError.other id))) ∧
    (∃ c, generalRuneCounter input ReadError.EOF = some (some c, none)) ∧
    ∀ stop, ∃ res : Result, generalRuneCounter input stop = some res ∧
      (res.1.isSome = true ↔ res.2 = none) := by
  refine ⟨generalRuneCounter_fail input id, ⟨_, generalRuneCounter_decode input⟩, ?_⟩
  intro stop
  cases stop with
  | EOF => exact ⟨_, generalRuneCounter_decode input, by simp⟩
  | other j => exact ⟨_, generalRuneCounter_fail input j, by simp⟩

/-- C14: when a read of `generalBufferCounter` reports an error other than
`io.EOF` and every read so far, that one included, decodes within its block
without an undecodable byte, the pass returns exactly that error together
with the counters of all the bytes delivered: what `generalRuneCounter`
counts on them, with `Bytes` their number. -/
theorem buffer_read_error_keeps_counters (src : Source) (id : Nat)
    (hstop : src.stop = ReadError.other id)
    (hgood : ∀ chunk ∈ src.blocks ++ [src.last], ∀ d ∈ decode chunk,
      ¬ (d.1 = RuneError ∧ d.2 = 1)) :
    ∃ c, generalBufferCounter src = some (some c, some (Error.read (ReadError.other id))) ∧
      generalRuneCounter src.bytes ReadError.EOF = some (some c, none) ∧
      c.Bytes = src.bytes.length := by
  obtain ⟨c, h1, h2⟩ := generalBufferCounter_read_error src id hstop hgood
  refine ⟨c, h1, h2, ?_⟩
  rw [generalRuneCounter_decode] at h2
  simp only [Option.some.injEq, Prod.mk.injEq, and_true] at h2
  rw [← h2]

/-- C14, witness: the read "a " and then a read that delivers "é" and reports
error 5. -/
theorem buffer_read_error_keeps_counters_witness :
    generalBufferCounter ⟨[[0x61, 0x20]], [0xC3, 0xA9], ReadError.other 5⟩
      = some (some ⟨0, 2, 4, 3⟩, some (Error.read (ReadError.other 5))) ∧
    ∃ c, generalBufferCounter ⟨[[0x61, 0x20]], [0xC3, 0xA9], ReadError.other 5⟩
        = some (some c, some (Error.read (ReadError.other 5))) ∧
      generalRuneCounter (Source.bytes ⟨[[0x61, 0x20]], [0xC3, 0xA9], ReadError.other 5⟩)
        ReadError.EOF = some (some c, none) ∧
      c.Bytes = (Source.bytes ⟨[[0x61, 0x20]], [0xC3, 0xA9], ReadError.other 5⟩).length :=
  ⟨by decide,
    buffer_read_error_keeps_counters ⟨[[0x61, 0x20]], [0xC3, 0xA9], ReadError.other 5⟩ 5 rfl
      (by decide)⟩

/-- C15: on the empty input, the end of the stream at the first read, both
`generalRuneCounter` and `generalBufferCounter` return without error and with
`Lines`, `Words`, `Bytes` and `Chars` all 0. -/
theorem empty_input_counts_zero :
    generalRuneCounter [] ReadError.EOF = some (some ⟨0, 0, 0, 0⟩, none) ∧
    generalBufferCounter ⟨[], [], ReadError.EOF⟩ = some (some ⟨0, 0, 0, 0⟩, none) := by
  decide

/-- C16: on every input whose decoded characters are all white space under
`unicode.IsSpace`, `generalRuneCounter` returns `Words` 0 and every `Counters`
that `generalBufferCounter` returns has `Words` 0, however the bytes are
split into reads; on every input with a character that is not white space
`generalRuneCounter` returns `Words >= 1`, and so does `generalBufferCounter`
whenever it returns without error. -/
theorem words_zero_iff_all_space (blank : List Byte)
    (hblank : ∀ d ∈ decode blank, IsSpace d.1 = true) (blankSrc : Source)
    (hblankSrc : ∀ d ∈ decode blankSrc.bytes, IsSpace d.1 = true) (input : List Byte)
    (hinput : ∃ d ∈ decode input, IsSpace d.1 = false) (src : Source) (c : Counters)
    (hsucc : generalBufferCounter src = some (some c, none))
    (hsrc : ∃ d ∈ decode src.bytes, IsSpace d.1 = false) :
    (∃ c₁, generalRuneCounter blank ReadError.EOF = some (some c₁, none) ∧ c₁.Words = 0) ∧
    (∃ c₂ e, generalBufferCounter blankSrc = some (some c₂, e) ∧ c₂.Words = 0) ∧
    (∃ c₃, generalRuneCounter input ReadError.EOF = some (some c₃, none) ∧ 1 ≤ c₃.Words) ∧
    1 ≤ c.Words := by
  have hzero : ∀ p : List Byte, (∀ d ∈ decode p, IsSpace d.1 = true) →
      wordStarts ((decode p).map Prod.fst) = 0 := by
    intro p hp
    apply wordStartsFrom_all_space
    intro r hr
    obtain ⟨d, hd, rfl⟩ := List.mem_map.mp hr
    exact hp d hd
  have hpos : ∀ p : List Byte, (∃ d ∈ decode p, IsSpace d.1 = false) →
      1 ≤ wordStarts ((decode p).map Prod.fst) := by
    intro p hp
    obtain ⟨d, hd, hsp⟩ := hp
    exact wordStarts_pos _ ⟨d.1, List.mem_map.mpr ⟨d, hd, rfl⟩, hsp⟩
  refine ⟨⟨_, generalRuneCounter_decode blank, hzero blank hblank⟩, ?_,
    ⟨_, generalRuneCounter_decode input, hpos input hinput⟩, ?_⟩
  · obtain ⟨c₂, e, pre, rest, h1, h2, h3, _, h5, _, _⟩ := generalBufferCounter_prefix blankSrc
    refine ⟨c₂, e, h1, ?_⟩
    rw [h5]
    apply hzero
    intro d hd
    apply hblankSrc
    rw [h2, decode_append_good pre.length pre rest (le_refl _) h3]
    exact List.mem_append_left _ hd
  · have hr := generalBufferCounter_agrees src c hsucc
    rw [generalRuneCounter_decode] at hr
    simp only [Option.some.injEq, Prod.mk.injEq, and_true] at hr
    rw [← hr]
    exact hpos src.bytes hsrc

/-- C16, witness: the input tab, U+00A0, newline (all white space), the same
text read so that a read ends inside U+00A0, the input " é", and the stream
" é" read as " " and "é". -/
theorem words_zero_iff_all_space_witness :
    generalRuneCounter [0x09, 0xC2, 0xA0, 0x0A] ReadError.EOF
      = some (some ⟨1, 0, 4, 3⟩, none) ∧
    generalBufferCounter ⟨[[0x09, 0xC2], [0xA0, 0x0A]], [], ReadError.EOF⟩
      = some (some ⟨0, 0, 2, 1⟩, some Error.invalidUTF8) ∧
    (∃ c₁, generalRuneCounter [0x09, 0xC2, 0xA0, 0x0A] ReadError.EOF
        = some (some c₁, none) ∧ c₁.Words = 0) ∧
    (∃ c₂ e, generalBufferCounter ⟨[[0x09, 0xC2], [0xA0, 0x0A]], [], ReadError.EOF⟩
        = some (some c₂, e) ∧ c₂.Words = 0) ∧
    (∃ c₃, generalRuneCounter [0x20, 0xC3, 0xA9] ReadError.EOF = some (some c₃, none) ∧
      1 ≤ c₃.Words) ∧
    1 ≤ (⟨0, 1, 3, 2⟩ : Counters).Words :=
  ⟨by decide, by decide,
    words_zero_iff_all_space [0x09, 0xC2, 0xA0, 0x0A] (by decide)
      ⟨[[0x09, 0xC2], [0xA0, 0x0A]], [], ReadError.EOF⟩ (by decide)
      [0x20, 0xC3, 0xA9] (by decide)
      ⟨[[0x20]], [0xC3, 0xA9], ReadError.EOF⟩ ⟨0, 1, 3, 2⟩ (by decide) (by decide)⟩

/-- C17: the flag handling at the start of `wc`. When none of the four
selectors is set, afterwards lines, words and bytes are set and characters is
not; when at least one is set, the four selectors are left as given; in both
cases `CompareMode` is unchanged. -/
theorem wc_flags_defaults (args : List String) (unset : Flags)
    (hunset : unset.AnySet = false) (given : Flags) (hgiven : given.AnySet = true) :
    ((wcFlags args unset).CountLines = true ∧ (wcFlags args unset).CountWords = true ∧
      (wcFlags args unset).CountBytes = true ∧ (wcFlags args unset).CountChars = false ∧
      (wcFlags args unset).CompareMode = unset.CompareMode) ∧
    ((wcFlags args given).CountLines = given.CountLines ∧
      (wcFlags args given).CountWords = given.CountWords ∧
      (wcFlags args given).CountBytes = given.CountBytes ∧
      (wcFlags args given).CountChars = given.CountChars ∧
      (wcFlags args given).CompareMode = given.CompareMode) := by
  obtain ⟨b, l, w, ch, fm, cm⟩ := unset
  obtain ⟨b', l', w', ch', fm', cm'⟩ := given
  simp only [Flags.AnySet, Bool.or_eq_false_iff, Bool.or_eq_true] at hunset hgiven
  obtain ⟨⟨⟨rfl, rfl⟩, rfl⟩, rfl⟩ := hunset
  constructor
  · by_cases ha : args.length ≠ 0 <;> simp [wcFlags, Flags.AnySet, Flags.SetDefaults, ha]
  · have hany : (b' || l' || w' || ch') = true := by
      simpa [Bool.or_eq_true] using hgiven
    by_cases ha : args.length ≠ 0 <;> simp [wcFlags, Flags.AnySet, ha, hany]

/-- C17, witness: no selector set, compare mode on, one argument; and only the
characters selector set, no argument. -/
theorem wc_flags_defaults_witness :
    wcFlags ["f.txt"] ⟨false, false, false, false, false, true⟩
      = ⟨true, true, true, false, true, true⟩ ∧
    wcFlags [] ⟨false, false, false, true, false, false⟩
      = ⟨false, false, false, true, false, false⟩ ∧
    ((wcFlags ["f.txt"] ⟨false, false, false, false, false, true⟩).CountLines = true ∧
      (wcFlags ["f.txt"] ⟨false, false, false, false, false, true⟩).CountWords = true ∧
      (wcFlags ["f.txt"] ⟨false, false, false, false, false, true⟩).CountBytes = true ∧
      (wcFlags ["f.txt"] ⟨false, false, false, false, false, true⟩).CountChars = false ∧
      (wcFlags ["f.txt"] ⟨false, false, false, false, false, true⟩).CompareMode = true) ∧
    ((wcFlags ["f.txt"] ⟨false, false, false, true, false, false⟩).CountLines = false ∧
      (wcFlags ["f.txt"] ⟨false, false, false, true, false, false⟩).CountWords = false ∧
      (wcFlags ["f.txt"] ⟨false, false, false, true, false, false⟩).CountBytes = false ∧
      (wcFlags ["f.txt"] ⟨false, false, false, true, false, false⟩).CountChars = true ∧
      (wcFlags ["f.txt"] ⟨false, false, false, true, false, false⟩).CompareMode = false) :=
  ⟨by decide, by decide,
    wc_flags_defaults ["f.txt"] ⟨false, false, false, false, false, true⟩ rfl
      ⟨false, false, false, true, false, false⟩ rfl⟩

/-- C18: for every `Counters`, flags and label, the line `printOutput` writes
is a tab, then the decimal values of exactly the selected counters in the
order Lines, Words, Bytes, Chars followed by the label, joined by single
spaces, then a newline; the label is the last field, and there are as many
counter fields as selectors set. -/
theorem print_output_line (state : Flags) (arg : String) (c : Counters) :
    printOutput state arg c = outputLine state arg c ∧
    ((selectedCounters state c).map formatInt ++ [arg]).getLast? = some arg ∧
    (selectedCounters state c).length
      = (if state.CountLines then 1 else 0) + (if state.CountWords then 1 else 0)
        + (if state.CountBytes then 1 else 0) + (if state.CountChars then 1 else 0) ∧
    printOutput ⟨true, true, true, false, true, false⟩ "f.txt" ⟨1, 2, 30, 4⟩
      = "\t1 2 30 f.txt\n" ∧
    printOutput ⟨false, false, false, true, false, false⟩ "" ⟨1, 2, 30, 4⟩ = "\t4 \n" := by
  refine ⟨?_, by simp, ?_, by decide, by decide⟩
  · obtain ⟨b, l, w, ch, fm, cm⟩ := state
    cases b <;> cases l <;> cases w <;> cases ch <;> rfl
  · obtain ⟨b, l, w, ch, fm, cm⟩ := state
    cases b <;> cases l <;> cases w <;> cases ch <;> rfl

/-- C19: for every stream and every split of it into reads, whenever
`generalBufferCounter` returns without error the stream has ended and
`generalRuneCounter` returns the same `Lines`, `Words`, `Bytes` and `Chars` on
the same bytes. -/
theorem buffer_success_agrees_with_rune_counter (src : Source) (c : Counters)
    (h : generalBufferCounter src = some (some c, none)) :
    src.stop = ReadError.EOF ∧
    generalRuneCounter src.bytes src.stop = some (some c, none) := by
  have hstop := (generalBufferCounter_success src c h).1
  refine ⟨hstop, ?_⟩
  rw [hstop]
  exact generalBufferCounter_agrees src c h

/-- C19, witness: "a é b" read as "a ", "é" and " b". -/
theorem buffer_success_agrees_with_rune_counter_witness :
    generalBufferCounter ⟨[[0x61, 0x20], [0xC3, 0xA9]], [0x20, 0x62], ReadError.EOF⟩
      = some (some ⟨0, 3, 6, 5⟩, none) ∧
    (⟨[[0x61, 0x20], [0xC3, 0xA9]], [0x20, 0x62], ReadError.EOF⟩ : Source).stop
      = ReadError.EOF ∧
    generalRuneCounter
        (Source.bytes ⟨[[0x61, 0x20], [0xC3, 0xA9]], [0x20, 0x62], ReadError.EOF⟩)
        ReadError.EOF = some (some ⟨0, 3, 6, 5⟩, none) :=
  ⟨by decide,
    buffer_success_agrees_with_rune_counter
      ⟨[[0x61, 0x20], [0xC3, 0xA9]], [0x20, 0x62], ReadError.EOF⟩ ⟨0, 3, 6, 5⟩ (by decide)⟩

/-- C20: in the in-block loop of `generalBufferCounter`, the decode step at a
position `i < len(chunk)` has a width of at least 1 and at most the bytes
left in the block, so the position grows and stays within `len(chunk)`; the
loop started at `i` returns within `len(chunk) - i` steps and one last test of
its condition, and a block takes at most `len(chunk)` steps. -/
theorem chunk_loop_terminates (chunk : List Byte) (i : Nat) (hi : i < chunk.length)
    (inWord : Bool) (counters : Counters) :
    1 ≤ (DecodeRune (chunk.drop i)).2 ∧
    (DecodeRune (chunk.drop i)).2 ≤ chunk.length - i ∧
    i < i + (DecodeRune (chunk.drop i)).2 ∧
    i + (DecodeRune (chunk.drop i)).2 ≤ chunk.length ∧
    (∃ res, chunkLoop (chunk.length - i + 1) chunk i inWord counters = some res) ∧
    (∃ res, chunkLoop (chunk.length + 1) chunk 0 inWord counters = some res) ∧
    (decode chunk).length ≤ chunk.length := by
  have hp : chunk.drop i ≠ [] := by
    intro h0
    have := congrArg List.length h0
    rw [List.length_drop] at this
    simp at this
    omega
  have hs := DecodeRune_size (chunk.drop i) hp
  rw [List.length_drop] at hs
  refine ⟨hs.1, hs.2.1, by omega, by omega,
    ⟨_, chunkLoop_eq chunk _ i inWord counters (by omega)⟩,
    ⟨_, chunkLoop_eq chunk _ 0 inWord counters (by omega)⟩, decode_length_le chunk⟩

/-- C20, witness: the block "aé" at position 1, the lead byte of "é". -/
theorem chunk_loop_terminates_witness :
    DecodeRune (([0x61, 0xC3, 0xA9] : List Byte).drop 1) = (0xE9, 2) ∧
    (1 ≤ (DecodeRune (([0x61, 0xC3, 0xA9] : List Byte).drop 1)).2 ∧
    (DecodeRune (([0x61, 0xC3, 0xA9] : List Byte).drop 1)).2
      ≤ ([0x61, 0xC3, 0xA9] : List Byte).length - 1 ∧
    1 < 1 + (DecodeRune (([0x61, 0xC3, 0xA9] : List Byte).drop 1)).2 ∧
    1 + (DecodeRune (([0x61, 0xC3, 0xA9] : List Byte).drop 1)).2
      ≤ ([0x61, 0xC3, 0xA9] : List Byte).length ∧
    (∃ res, chunkLoop (([0x61, 0xC3, 0xA9] : List Byte).length - 1 + 1) [0x61, 0xC3, 0xA9] 1
        false ⟨0, 0, 3, 0⟩ = some res) ∧
    (∃ res, chunkLoop (([0x61, 0xC3, 0xA9] : List Byte).length + 1) [0x61, 0xC3, 0xA9] 0
        false ⟨0, 0, 3, 0⟩ = some res) ∧
    (decode ([0x61, 0xC3, 0xA9] : List Byte)).length
      ≤ ([0x61, 0xC3, 0xA9] : List Byte).length) :=
  ⟨by decide, chunk_loop_terminates [0x61, 0xC3, 0xA9] 1 (by decide) false ⟨0, 0, 3, 0⟩⟩

end Ccwc
